import Mathlib

/-!
Shallow embedding of the geppy core: the primitives of `geppy.core.symbol`,
the Karva decoder of `geppy.core.entity` (`Gene.kexpression`,
`ExpressionTree._from_kexpression`, `GeneDc.kexpression`), the genetic
operators of `geppy.tools.mutation` and `geppy.tools.crossover`, the
generators of `geppy.tools.generator`, and the `PrimitiveSet` registry.

Randomness is made explicit: every call of `random.randint(a, b)` takes the
drawn value as an extra argument and yields `none` unless the value lies in
`[a, b]`; in particular an empty range (`b < a`) yields `none` for every
draw, which models the `ValueError` Python raises in that situation.
Fallible code (assertion failures, index errors) returns `Option`.
-/

namespace Geppy

/-- Kind of a primitive, mirroring the class hierarchy of `geppy.core.symbol`:
`Function`, the base class `Terminal` (as produced by `GeneDc.kexpression`
when it resolves an RNC), `SymbolTerminal`, `ConstantTerminal`,
`EphemeralTerminal` and `RNCTerminal`. -/
inductive SymKind where
  | func
  | term
  | symTerm
  | constTerm
  | ephTerm
  | rncTerm
deriving DecidableEq

/-- A primitive (`geppy.core.symbol.Primitive`): a name and an arity, with the
kind recording the concrete subclass.  In the source every `Terminal` subclass
has arity 0; theorems take this as a hypothesis where they need it. -/
structure Symbol where
  name : String
  kind : SymKind
  arity : Nat
deriving DecidableEq

/-- One element of the flat Python list underlying a gene.  A plain `Gene` is
a list of primitives; a `GeneDc` keeps the Dc domain (plain `int` indices into
the RNC array) in the same list after the tail, so an element is either a
primitive or an integer. -/
inductive GElem where
  | sym (s : Symbol)
  | num (n : Nat)
deriving DecidableEq

/-- Model of `random.randint(lo, hi)`: the draw `x` is an explicit argument
and the result is `none` when `x` is not a possible outcome.  When `hi < lo`
(empty range) the result is `none` for every draw, which models the
`ValueError` Python raises.  All lower bounds in the source are nonnegative,
so `lo` is a `Nat`, while `hi` is an `Int` because the source computes upper
bounds such as `head_length - 1` that can be negative. -/
def randint (lo : Nat) (hi : Int) (x : Nat) : Option Nat :=
  if lo ≤ x ∧ (x : Int) ≤ hi then some x else none

/-- Python slice `l[a:b]` for nonnegative bounds (out-of-range bounds clamp,
`b ≤ a` gives `[]`). -/
def pyslice {α : Type} (l : List α) (a b : Nat) : List α :=
  (l.drop a).take (b - a)

/-- Reading `p.arity` off a gene element: an `int` stored in the Dc domain has
no `arity` attribute, which in Python raises `AttributeError`. -/
def elemArity : GElem → Option Nat
  | .sym s => some s.arity
  | .num _ => none

/-- Loop of `Gene.kexpression` (entity.py lines 194-203): starting from
`expr = [self[0]]`, `i = 0`, `j = 1`, while `i < len(expr)` append the next
`expr[i].arity` unread gene symbols to `expr`.  Reading past the end of the
gene (Python `IndexError`) yields `none`.  The fuel argument only serves
termination: the caller passes `len(gene)` and the safety theorem shows this
is never exhausted, because each iteration increases `i` and the loop runs
while `i < len(expr) ≤ len(gene)`. -/
def kexprLoop (gene : List GElem) : Nat → List GElem → Nat → Nat → Option (List GElem)
  | 0, expr, i, _ => if i < expr.length then none else some expr
  | fuel + 1, expr, i, j =>
    if i < expr.length then
      match expr[i]?.bind elemArity with
      | none => none
      | some a =>
        if j + a ≤ gene.length then
          kexprLoop gene fuel (expr ++ (gene.drop j).take a) (i + 1) (j + a)
        else none
    else some expr

/-- `Gene.kexpression` (entity.py lines 190-203): the breadth-first
arity-driven scan producing the K-expression of a gene. -/
def kexpression (gene : List GElem) : Option (List GElem) :=
  match gene[0]? with
  | none => none
  | some p => kexprLoop gene gene.length [p] 0 1

/-- Whether a gene element is a primitive (and not a Dc integer). -/
def isSym : GElem → Bool
  | .sym _ => true
  | .num _ => false

/-- Arity of a gene element for bookkeeping sums; a Dc integer counts as 0
(the decoding theorems prove the scan never reaches the Dc domain). -/
def arityOf : GElem → Nat
  | .sym s => s.arity
  | .num _ => 0

/-- Sum of the arities of a list of gene elements. -/
def aritySum (l : List GElem) : Nat := (l.map arityOf).sum

/-- Sum of the arities of the first `i` elements of a gene: the value of the
cursor `j - 1` of `Gene.kexpression` after `i` loop iterations. -/
def sumTo (gene : List GElem) (i : Nat) : Nat := aritySum (gene.take i)

/-- An expression tree (`geppy.core.entity.ExpressionTree`).  A node keeps the
whole primitive rather than only its name so that the arity contract can be
stated; the source stores `p.name`. -/
inductive ETree where
  | node (s : Symbol) (children : List ETree)

/-- Every node of the tree has exactly as many children as its primitive's
arity. -/
inductive ArityOk : ETree → Prop where
  | mk (s : Symbol) (ts : List ETree) :
      ts.length = s.arity → (∀ t ∈ ts, ArityOk t) → ArityOk (.node s ts)

/-- Structural `mapM` over `Option`, kept first-order so that proofs and
kernel evaluation unfold it directly. -/
def mapOption {α β : Type} (f : α → Option β) : List α → Option (List β)
  | [] => some []
  | a :: l =>
    match f a with
    | some b =>
      match mapOption f l with
      | some bs => some (b :: bs)
      | none => none
    | none => none

/-- Linking pass of `ExpressionTree._from_kexpression` (entity.py lines
111-131), processed from the last node down to node 0.  In the source, node
`i` receives as children the nodes at positions `S + 1, …, S + arity` where
`S` is the running cursor `j`, i.e. the sum of the arities of nodes `0…i-1`
(`sumTo expr i`); those positions are all greater than `i` whenever the
cursor never falls behind the node index, so the tree for node `i` can be
assembled from the already-built trees of nodes `i+1, …`.  `acc` holds the
trees of nodes `i, i+1, …` and a child position that is out of range (Python
`IndexError`) or not beyond the current node (which in Python would silently
create a cyclic node structure, impossible for any K-expression produced by
the decoder) yields `none`. -/
def buildFrom (expr : List GElem) : Nat → List ETree → Option (List ETree)
  | 0, acc => some acc
  | i + 1, acc =>
    match expr[i]? with
    | some (.sym s) =>
      match mapOption
          (fun k =>
            if i + 1 ≤ sumTo expr i + 1 + k then acc[sumTo expr i + 1 + k - (i + 1)]?
            else none) (List.range s.arity) with
      | some ts => buildFrom expr i (.node s ts :: acc)
      | none => none
    | _ => none

/-- `ExpressionTree._from_kexpression` (entity.py lines 111-131): build one
node per primitive and attach to node `i` the next `arity(i)` unattached
nodes; the root is node 0.  An empty K-expression returns `None` in the
source, and a Dc integer in the list has no `name` attribute, both mapped to
`none` here. -/
def fromKexpression (expr : List GElem) : Option ETree :=
  match buildFrom expr expr.length [] with
  | some (t :: _) => some t
  | _ => none

theorem isSym_exists (e : GElem) (h : isSym e = true) : ∃ s, e = GElem.sym s := by
  cases e with
  | sym s => exact ⟨s, rfl⟩
  | num n => simp [isSym] at h

theorem aritySum_append (a b : List GElem) :
    aritySum (a ++ b) = aritySum a + aritySum b := by
  simp [aritySum]

theorem sumTo_zero (gene : List GElem) : sumTo gene 0 = 0 := by
  simp [sumTo, aritySum]

theorem sumTo_succ (gene : List GElem) (i : Nat) (e : GElem)
    (h : gene[i]? = some e) :
    sumTo gene (i + 1) = sumTo gene i + arityOf e := by
  have ht : gene.take (i + 1) = gene.take i ++ [e] := by
    rw [List.take_succ, h]; rfl
  simp [sumTo, ht, aritySum_append, aritySum]

theorem sumTo_mono (gene : List GElem) {i j : Nat} (h : i ≤ j) :
    sumTo gene i ≤ sumTo gene j := by
  unfold sumTo
  calc aritySum (gene.take i) = aritySum ((gene.take j).take i) := by
        rw [List.take_take, Nat.min_eq_left h]
    _ ≤ aritySum ((gene.take j).take i) + aritySum ((gene.take j).drop i) :=
        Nat.le_add_right _ _
    _ = aritySum (gene.take j) := by rw [← aritySum_append, List.take_append_drop]

theorem sumTo_le_mul (gene : List GElem) (m i : Nat)
    (hb : ∀ e ∈ gene.take i, arityOf e ≤ m) :
    sumTo gene i ≤ i * m := by
  have h1 : ((gene.take i).map arityOf).sum ≤ ((gene.take i).map arityOf).length • m := by
    apply List.sum_le_card_nsmul
    intro x hx
    rcases List.mem_map.mp hx with ⟨e, he, rfl⟩
    exact hb e he
  simp only [smul_eq_mul, List.length_map, List.length_take] at h1
  calc sumTo gene i ≤ min i gene.length * m := h1
    _ ≤ i * m := Nat.mul_le_mul_right _ (Nat.min_le_left _ _)

theorem sumTo_take (gene : List GElem) {k jf : Nat} (h : k ≤ jf) :
    sumTo (gene.take jf) k = sumTo gene k := by
  unfold sumTo
  rw [List.take_take, Nat.min_eq_left h]

theorem mapOption_some {α β : Type} (f : α → Option β) (P : β → Prop) (l : List α)
    (hf : ∀ x ∈ l, ∃ y, f x = some y ∧ P y) :
    ∃ ys, mapOption f l = some ys ∧ ys.length = l.length ∧ ∀ y ∈ ys, P y := by
  induction l with
  | nil => exact ⟨[], rfl, rfl, by simp⟩
  | cons a l ih =>
    obtain ⟨y, hy, hPy⟩ := hf a (by simp)
    obtain ⟨ys, hys, hlen, hall⟩ := ih (fun x hx => hf x (by simp [hx]))
    refine ⟨y :: ys, ?_, by simp [hlen], ?_⟩
    · simp [mapOption, hy, hys]
    · intro z hz
      rcases List.mem_cons.mp hz with rfl | hz2
      · exact hPy
      · exact hall z hz2

/-- Safety of the breadth-first scan of `Gene.kexpression`: under the
head/tail layout invariant the loop always ends with `i = len(expr)` before
reading past the end of the gene, the result is the prefix `gene.take jf` of
the gene for some `jf ≤ len(gene)`, the arities of that prefix sum to
`jf - 1`, and the running cursor never falls behind the scan index. -/
theorem kexprLoop_safe (gene : List GElem) (h m : Nat)
    (hsym : ∀ e ∈ gene, isSym e = true)
    (hb : ∀ e ∈ gene, arityOf e ≤ m)
    (htail : ∀ i : Fin gene.length, h ≤ (i : Nat) → arityOf gene[i] = 0)
    (hlen : gene.length = h * m + 1) :
    ∀ fuel i j, i ≤ j → j = 1 + sumTo gene i → j ≤ gene.length →
      gene.length ≤ fuel + i →
      ∃ jf, kexprLoop gene fuel (gene.take j) i j = some (gene.take jf) ∧
        j ≤ jf ∧ jf ≤ gene.length ∧ jf = 1 + sumTo gene jf ∧
        ∀ k, i ≤ k → k < jf → k < 1 + sumTo gene k := by
  intro fuel
  induction fuel with
  | zero =>
    intro i j hij hj hjlen hfuel
    have hieq : i = j := by omega
    have hi : ¬ i < (gene.take j).length := by
      rw [List.length_take]; omega
    refine ⟨j, by rw [kexprLoop, if_neg hi], Nat.le_refl j, hjlen, ?_, ?_⟩
    · rw [← hieq] at hj ⊢; exact hj
    · intro k hk1 hk2; omega
  | succ fuel ih =>
    intro i j hij hj hjlen hfuel
    by_cases hij2 : i < j
    · have hexprlen : (gene.take j).length = j := by
        rw [List.length_take]; omega
      have higene : i < gene.length := by omega
      have hgete : gene[i]? = some gene[i] := List.getElem?_eq_getElem higene
      obtain ⟨s, hs⟩ := isSym_exists gene[i] (hsym gene[i] (List.getElem_mem higene))
      have hget2 : (gene.take j)[i]? = some gene[i] := by
        rw [List.getElem?_take, if_pos hij2, hgete]
      have harityOf : arityOf gene[i] = s.arity := by rw [hs]; rfl
      have hbindget : (gene.take j)[i]?.bind elemArity = some s.arity := by
        rw [hget2, hs]; rfl
      have hstep : j + s.arity ≤ gene.length := by
        by_cases hih : i < h
        · have h1 : sumTo gene i ≤ i * m :=
            sumTo_le_mul gene m i (fun e he => hb e (List.take_subset _ _ he))
          have h2 : arityOf gene[i] ≤ m := hb _ (List.getElem_mem higene)
          have h3 : (i + 1) * m ≤ h * m := Nat.mul_le_mul_right m (by omega)
          have h4 : i * m + m = (i + 1) * m := by ring
          omega
        · have h0 : arityOf gene[i] = 0 := htail ⟨i, higene⟩ (Nat.le_of_not_lt hih)
          omega
      have hnewexpr : gene.take j ++ (gene.drop j).take s.arity
          = gene.take (j + s.arity) := (List.take_add gene j s.arity).symm
      have hsumsucc : sumTo gene (i + 1) = sumTo gene i + s.arity := by
        rw [sumTo_succ gene i _ hgete, harityOf]
      obtain ⟨jf, hrun, hjf1, hjf2, hjf3, hjf4⟩ :=
        ih (i + 1) (j + s.arity) (by omega) (by omega) hstep (by omega)
      refine ⟨jf, ?_, by omega, hjf2, hjf3, ?_⟩
      · rw [kexprLoop, if_pos (by rw [hexprlen]; exact hij2), hbindget]
        simp only
        rw [if_pos hstep, hnewexpr]
        exact hrun
      · intro k hk1 hk2
        rcases Nat.eq_or_lt_of_le hk1 with rfl | hlt
        · omega
        · exact hjf4 k (by omega) hk2
    · have hieq : i = j := by omega
      have hi : ¬ i < (gene.take j).length := by
        rw [List.length_take]; omega
      refine ⟨j, ?_, Nat.le_refl j, hjlen, ?_, ?_⟩
      · rw [kexprLoop, if_neg hi]
      · rw [← hieq] at hj ⊢; exact hj
      · intro k hk1 hk2; omega

/-- Safety of the linking pass of `ExpressionTree._from_kexpression`: when the
arities of the K-expression sum to `len - 1` and no prefix sum falls behind
its index, every child position is in range and every built node receives
exactly `arity` children. -/
theorem buildFrom_safe (expr : List GElem)
    (hsym : ∀ e ∈ expr, isSym e = true)
    (hpre : ∀ k, k < expr.length → k ≤ sumTo expr k)
    (htot : sumTo expr expr.length + 1 = expr.length) :
    ∀ i acc, i ≤ expr.length → acc.length + i = expr.length →
      (∀ t ∈ acc, ArityOk t) →
      ∃ acc2, buildFrom expr i acc = some acc2 ∧ acc2.length = expr.length ∧
        ∀ t ∈ acc2, ArityOk t := by
  intro i
  induction i with
  | zero =>
    intro acc h1 h2 h3
    exact ⟨acc, by simp [buildFrom], by omega, h3⟩
  | succ i ih =>
    intro acc h1 h2 h3
    have hi : i < expr.length := by omega
    have hget : expr[i]? = some expr[i] := List.getElem?_eq_getElem hi
    obtain ⟨s, hs⟩ := isSym_exists expr[i] (hsym expr[i] (List.getElem_mem hi))
    have hgets : expr[i]? = some (GElem.sym s) := by rw [hget, hs]
    have hsucc : sumTo expr (i + 1) = sumTo expr i + s.arity := by
      rw [sumTo_succ expr i _ hget, hs]; rfl
    have hip : i ≤ sumTo expr i := hpre i hi
    have hmono : sumTo expr (i + 1) ≤ sumTo expr expr.length :=
      sumTo_mono expr (by omega)
    have hmap : ∀ k ∈ List.range s.arity, ∃ t,
        (if i + 1 ≤ sumTo expr i + 1 + k then acc[sumTo expr i + 1 + k - (i + 1)]?
         else none) = some t ∧ ArityOk t := by
      intro k hk
      have hk2 : k < s.arity := List.mem_range.mp hk
      have hidx : sumTo expr i + 1 + k - (i + 1) < acc.length := by omega
      refine ⟨acc[sumTo expr i + 1 + k - (i + 1)], ?_, h3 _ (List.getElem_mem hidx)⟩
      rw [if_pos (by omega)]
      exact List.getElem?_eq_getElem hidx
    obtain ⟨ts, hts, htslen, htsok⟩ := mapOption_some _ ArityOk _ hmap
    have hnodeok : ArityOk (ETree.node s ts) :=
      ArityOk.mk s ts (by rw [htslen, List.length_range]) htsok
    obtain ⟨acc2, hacc2, hl2, hok2⟩ :=
      ih (ETree.node s ts :: acc) (by omega) (by simp; omega)
        (by
          intro t ht
          rcases List.mem_cons.mp ht with rfl | ht2
          · exact hnodeok
          · exact h3 t ht2)
    refine ⟨acc2, ?_, hl2, hok2⟩
    rw [buildFrom, hgets]
    simp only
    rw [hts]
    exact hacc2

/-- `ExpressionTree._from_kexpression` is safe on any K-expression whose
arities sum to `len - 1` with no prefix sum falling behind its index. -/
theorem fromKexpression_safe (expr : List GElem)
    (hsym : ∀ e ∈ expr, isSym e = true)
    (hpre : ∀ k, k < expr.length → k ≤ sumTo expr k)
    (htot : sumTo expr expr.length + 1 = expr.length) :
    ∃ t, fromKexpression expr = some t ∧ ArityOk t := by
  obtain ⟨acc2, h1, h2, h3⟩ :=
    buildFrom_safe expr hsym hpre htot expr.length [] (Nat.le_refl _) (by simp) (by simp)
  cases acc2 with
  | nil => simp at h2; omega
  | cons t rest =>
    exact ⟨t, by rw [fromKexpression, h1], h3 t (by simp)⟩

/-- C1: for every gene whose tail domain (positions from `head_length` on)
contains only terminals (arity 0) and whose length equals
`head_length + (head_length * (max_arity - 1) + 1)`, decoding terminates:
`Gene.kexpression` succeeds without ever reading an index past the end of the
gene (an out-of-range read is the `none` case of the embedding), the
K-expression it returns consumes at most `len(gene)` symbols, and the
expression tree built from it by `ExpressionTree._from_kexpression` gives
every node a child count exactly equal to its symbol's arity. -/
theorem kexpression_decode_safe (gene : List GElem) (h m : Nat) (hm : 1 ≤ m)
    (hsym : ∀ e ∈ gene, isSym e = true)
    (hb : ∀ e ∈ gene, arityOf e ≤ m)
    (htail : ∀ i : Fin gene.length, h ≤ (i : Nat) → arityOf gene[i] = 0)
    (hlen : gene.length = h + (h * (m - 1) + 1)) :
    ∃ expr, kexpression gene = some expr ∧ expr.length ≤ gene.length ∧
      ∃ t, fromKexpression expr = some t ∧ ArityOk t := by
  have hmm : h * (m - 1) + h = h * m := by
    cases m with
    | zero => omega
    | succ m2 => simp [Nat.mul_succ]
  have hlen2 : gene.length = h * m + 1 := by omega
  have hpos : 0 < gene.length := by omega
  have hget0 : gene[0]? = some gene[0] := List.getElem?_eq_getElem hpos
  have htake1 : gene.take 1 = [gene[0]] := by
    rw [List.take_succ, List.take_zero, hget0]; rfl
  obtain ⟨jf, hrun, hj1, hj2, hj3, hj4⟩ :=
    kexprLoop_safe gene h m hsym hb htail hlen2 gene.length 0 1
      (by omega) (by rw [sumTo_zero]) (by omega) (by omega)
  rw [htake1] at hrun
  have hexprlen : (gene.take jf).length = jf := by
    rw [List.length_take]; omega
  refine ⟨gene.take jf, ?_, by rw [hexprlen]; omega, ?_⟩
  · rw [kexpression, hget0]
    exact hrun
  · apply fromKexpression_safe
    · intro e he
      exact hsym e (List.take_subset _ _ he)
    · intro k hk
      rw [hexprlen] at hk
      rw [sumTo_take gene (Nat.le_of_lt hk)]
      have := hj4 k (Nat.zero_le k) hk
      omega
    · rw [hexprlen, sumTo_take gene (Nat.le_refl jf)]
      omega

/-! ### The worked example of the spec: head `[AND, NOT]`, tail `[a, b, c]` -/

def AND : Symbol := ⟨"AND", .func, 2⟩
def NOT : Symbol := ⟨"NOT", .func, 1⟩
def termA : Symbol := ⟨"a", .symTerm, 0⟩
def termB : Symbol := ⟨"b", .symTerm, 0⟩
def termC : Symbol := ⟨"c", .symTerm, 0⟩

/-- The concrete gene `[AND, NOT, a, b, c]` with `head_length = 2`:
`max_arity = 2` gives `tail_length = 2 * (2 - 1) + 1 = 3`. -/
def geneANDNOT : List GElem :=
  [.sym AND, .sym NOT, .sym termA, .sym termB, .sym termC]

/-- Witness for `kexpression_decode_safe` at the concrete gene
`[AND, NOT, a, b, c]` with `head_length = 2` and `max_arity = 2`. -/
theorem kexpression_decode_safe_witness :
    ((1 : Nat) ≤ 2 ∧ (∀ e ∈ geneANDNOT, isSym e = true) ∧
      (∀ e ∈ geneANDNOT, arityOf e ≤ 2) ∧
      (∀ i : Fin geneANDNOT.length, 2 ≤ (i : Nat) → arityOf geneANDNOT[i] = 0) ∧
      geneANDNOT.length = 2 + (2 * (2 - 1) + 1)) ∧
    ∃ expr, kexpression geneANDNOT = some expr ∧ expr.length ≤ geneANDNOT.length ∧
      ∃ t, fromKexpression expr = some t ∧ ArityOk t :=
  ⟨⟨by decide, by decide, by decide, by decide, by decide⟩,
   kexpression_decode_safe geneANDNOT 2 2 (by decide) (by decide) (by decide)
     (by decide) (by decide)⟩

/-- C2 (counterexample): for the gene `[AND, NOT, a, b, c]` with
`head_length = 2` the expression tree produced by the code is NOT
`AND(NOT(a), b)` as the claim states: node `NOT` receives the symbol at
K-expression position 3, which is `b`, and `AND`'s second child is the symbol
at position 2, which is `a`. -/
theorem kexpression_example_tree_cx :
    ¬ ((kexpression geneANDNOT).bind fromKexpression
        = some (.node AND [.node NOT [.node termA []], .node termB []])) := by
  intro hcontra
  have hval : (kexpression geneANDNOT).bind fromKexpression
      = some (.node AND [.node NOT [.node termB []], .node termA []]) := by rfl
  rw [hval] at hcontra
  simp [AND, NOT, termA, termB] at hcontra

/-- C2 (amended): for the concrete gene `[AND, NOT, a, b, c]` with
`head_length = 2` over the alphabet where `AND` has arity 2, `NOT` arity 1
and `a`, `b`, `c` are terminals, `Gene.kexpression` returns exactly
`[AND, NOT, a, b]`, and the expression tree built from it is
`AND(NOT(b), a)` (the claim stated `AND(NOT(a), b)`). -/
theorem kexpression_example :
    kexpression geneANDNOT
      = some [.sym AND, .sym NOT, .sym termA, .sym termB] ∧
    (kexpression geneANDNOT).bind fromKexpression
      = some (.node AND [.node NOT [.node termB []], .node termA []]) :=
  ⟨by decide, by rfl⟩

/-! ### GeneDc: genes with a Dc domain (entity.py lines 250-436) -/

/-- A `GeneDc`.  In Python the object is one flat list
`head ++ tail ++ Dc` — symbols followed by plain integers — together with
the attributes `_head_length` and `_rnc_array`; `elems` is that flat list. -/
structure GeneDc where
  elems : List GElem
  headLen : Nat
  rncArray : List Int
deriving DecidableEq

/-- `GeneDc.tail_length` (entity.py lines 339-344):
`(len(self) - head_length) // 2`. -/
def GeneDc.tail_length (g : GeneDc) : Nat := (g.elems.length - g.headLen) / 2

/-- `GeneDc.dc_length` (entity.py lines 325-330), equal to the tail length. -/
def GeneDc.dc_length (g : GeneDc) : Nat := g.tail_length

/-- `GeneDc.dc` (entity.py lines 354-360): the slice
`self[head_length + tail_length : head_length + tail_length + dc_length]`. -/
def GeneDc.dc (g : GeneDc) : List GElem :=
  pyslice g.elems (g.headLen + g.tail_length)
    (g.headLen + g.tail_length + g.dc_length)

/-- `convert_RNC` inside `GeneDc.kexpression` (entity.py lines 414-422): an
RNC terminal is replaced by the constant terminal `Terminal(str(value),
value)` where `value = rnc_array[self.dc[n_rnc]]`, and the counter `n_rnc`
advances; any other element passes through unchanged.  An out-of-range Dc
index, a Dc entry that is not an integer, or an out-of-range RNC-array index
yields `none` (Python `IndexError`/`TypeError`). -/
def convert_RNC (g : GeneDc) (nRnc : Nat) (e : GElem) : Option (GElem × Nat) :=
  match e with
  | .sym s =>
    if s.kind = .rncTerm then
      match g.dc[nRnc]? with
      | some (.num index) =>
        match g.rncArray[index]? with
        | some value => some (.sym ⟨toString value, .term, 0⟩, nRnc + 1)
        | none => none
      | _ => none
    else some (.sym s, nRnc)
  | .num n => some (.num n, nRnc)

/-- Inner `for _ in range(expr[i].arity)` of `GeneDc.kexpression`: append
`convert_RNC(self[j])` for `j, j+1, …, j+a-1`, threading the RNC counter. -/
def convertChunk (g : GeneDc) : Nat → Nat → Nat → Option (List GElem × Nat)
  | 0, _, nRnc => some ([], nRnc)
  | a + 1, j, nRnc =>
    match g.elems[j]? with
    | none => none
    | some e =>
      match convert_RNC g nRnc e with
      | none => none
      | some (e2, n2) =>
        match convertChunk g a (j + 1) n2 with
        | none => none
        | some (rest, nf) => some (e2 :: rest, nf)

/-- Loop of `GeneDc.kexpression` (entity.py lines 424-433): same
breadth-first scan as `Gene.kexpression`, with every appended element run
through `convert_RNC`. -/
def kexprDcLoop (g : GeneDc) : Nat → List GElem → Nat → Nat → Nat → Option (List GElem)
  | 0, expr, i, _, _ => if i < expr.length then none else some expr
  | fuel + 1, expr, i, j, nRnc =>
    if i < expr.length then
      match expr[i]?.bind elemArity with
      | none => none
      | some a =>
        match convertChunk g a j nRnc with
        | none => none
        | some (chunk, n2) => kexprDcLoop g fuel (expr ++ chunk) (i + 1) (j + a) n2
    else some expr

/-- `GeneDc.kexpression` (entity.py lines 405-433). -/
def kexpression_dc (g : GeneDc) : Option (List GElem) :=
  match g.elems[0]? with
  | none => none
  | some p =>
    match convert_RNC g 0 p with
    | none => none
    | some (p2, n1) => kexprDcLoop g g.elems.length [p2] 0 1 n1

/-- Whether a gene element is an RNC terminal
(`isinstance(p, RNCTerminal)`). -/
def isRnc : GElem → Bool
  | .sym s => s.kind == .rncTerm
  | .num _ => false

/-- Number of RNC terminals in a list of gene elements. -/
def rncCount (l : List GElem) : Nat := l.countP isRnc

/-- Number of RNC terminals among the first `j` elements of a gene: the
value of the counter `n_rnc` of `GeneDc.kexpression` once the scan has
consumed `j` symbols. -/
def rncTo (gene : List GElem) (j : Nat) : Nat := rncCount (gene.take j)

/-- An RNC terminal has arity 0 (it is a `Terminal` in the source); holds
vacuously for everything else. -/
def rncZero : GElem → Bool
  | .sym s => s.kind != .rncTerm || s.arity == 0
  | .num _ => true

/-- A well-formed Dc entry: an integer index within the RNC array. -/
def isDcEntry (rncLen : Nat) : GElem → Bool
  | .num v => v < rncLen
  | .sym _ => false

theorem rncTo_succ (gene : List GElem) (j : Nat) (e : GElem)
    (h : gene[j]? = some e) :
    rncTo gene (j + 1) = rncTo gene j + (if isRnc e then 1 else 0) := by
  have ht : gene.take (j + 1) = gene.take j ++ [e] := by
    rw [List.take_succ, h]; rfl
  simp [rncTo, rncCount, ht, List.countP_append, List.countP_cons]

theorem rncTo_mono (gene : List GElem) {i j : Nat} (h : i ≤ j) :
    rncTo gene i ≤ rncTo gene j := by
  unfold rncTo rncCount
  have heq : gene.take i = (gene.take j).take i := by
    rw [List.take_take, Nat.min_eq_left h]
  rw [heq]
  exact List.Sublist.countP_le _ (List.take_sublist _ _)

theorem rncZero_arity (e : GElem) (h1 : rncZero e = true) (h2 : isRnc e = true) :
    arityOf e = 0 := by
  cases e with
  | num n => rfl
  | sym s =>
    simp [isRnc] at h2
    simp [rncZero, h2] at h1
    simp [arityOf, h1]

theorem aritySum_le_countP (l : List GElem) (m : Nat)
    (hb : ∀ e ∈ l, arityOf e ≤ m) :
    aritySum l ≤ l.countP (fun e => decide (0 < arityOf e)) * m := by
  induction l with
  | nil => simp [aritySum]
  | cons a l ih =>
    have hb2 : ∀ e ∈ l, arityOf e ≤ m := fun e he => hb e (by simp [he])
    have ha := hb a (by simp)
    have hsum : aritySum (a :: l) = arityOf a + aritySum l := by
      simp [aritySum]
    rw [List.countP_cons, hsum]
    by_cases h0 : 0 < arityOf a
    · rw [if_pos (by simpa using h0)]
      have hmul : (List.countP (fun e => decide (0 < arityOf e)) l + 1) * m
          = List.countP (fun e => decide (0 < arityOf e)) l * m + m := by ring
      have := ih hb2
      omega
    · have ha0 : arityOf a = 0 := by omega
      rw [if_neg (by simp [ha0]), Nat.add_zero]
      have := ih hb2
      omega

/-- Counting bound for GEP-RNC decoding: along any reachable scan prefix of
length `J = 1 + sumTo i` with `i ≤ J ≤ h + t`, the number of RNC terminals
(which all have arity 0) is at most `t = h * (m - 1) + 1`, because the number
of arity-0 symbols in the prefix is at most `1 + f * (m - 1)` where `f ≤ h`
is the number of functions in it. -/
theorem rncTo_le (elems : List GElem) (h m t : Nat)
    (hm : 1 ≤ m) (ht : t = h * (m - 1) + 1)
    (hb : ∀ e ∈ elems.take (h + t), arityOf e ≤ m)
    (hrnc0 : ∀ e ∈ elems.take (h + t), rncZero e = true)
    (htail : ∀ e ∈ pyslice elems h (h + t), arityOf e = 0)
    (hHTlen : h + t ≤ elems.length)
    (i J : Nat) (hiJ : i ≤ J) (hJ : J = 1 + sumTo elems i) (hJHT : J ≤ h + t) :
    rncTo elems J ≤ t := by
  have htakeJ : elems.take J = (elems.take (h + t)).take J := by
    rw [List.take_take, Nat.min_eq_left hJHT]
  have htakei : elems.take i = (elems.take J).take i := by
    rw [List.take_take, Nat.min_eq_left hiJ]
  set pos : GElem → Bool := fun e => decide (0 < arityOf e) with hpos
  set f := List.countP pos (elems.take J) with hf
  set z := List.countP (fun e => decide (arityOf e = 0)) (elems.take J) with hz
  have hlenJ : (elems.take J).length = J := by
    rw [List.length_take]; omega
  have hfz : J = f + z := by
    have hcnt := List.length_eq_countP_add_countP pos (elems.take J)
    rw [hlenJ] at hcnt
    rw [hcnt]
    congr 1
    apply List.countP_congr
    intro x hx
    simp only [hpos, decide_eq_true_eq]
    omega
  have hrz : rncTo elems J ≤ z := by
    rw [rncTo, rncCount, hz]
    apply List.countP_mono_left
    intro x hx hrx
    have hx2 : x ∈ elems.take (h + t) := by
      rw [htakeJ] at hx
      exact List.take_subset _ _ hx
    simp only [decide_eq_true_eq]
    exact rncZero_arity x (hrnc0 x hx2) hrx
  have hc : J ≤ 1 + f * m := by
    have h1 : aritySum (elems.take i) ≤ List.countP pos (elems.take i) * m := by
      apply aritySum_le_countP
      intro e he
      apply hb
      have : elems.take i = (elems.take (h + t)).take i := by
        rw [List.take_take, Nat.min_eq_left (by omega)]
      rw [this] at he
      exact List.take_subset _ _ he
    have h2 : List.countP pos (elems.take i) ≤ f := by
      rw [hf, htakei]
      exact List.Sublist.countP_le _ (List.take_sublist _ _)
    have h3 : List.countP pos (elems.take i) * m ≤ f * m :=
      Nat.mul_le_mul_right _ h2
    have h4 : J = 1 + aritySum (elems.take i) := hJ
    omega
  have hd : f ≤ h := by
    have hsub : f ≤ List.countP pos (elems.take (h + t)) := by
      rw [hf, htakeJ]
      exact List.Sublist.countP_le _ (List.take_sublist _ _)
    have hsplit : elems.take (h + t) = elems.take h ++ pyslice elems h (h + t) := by
      rw [List.take_add]
      unfold pyslice
      rw [Nat.add_sub_cancel_left]
    have hzero : List.countP pos (pyslice elems h (h + t)) = 0 := by
      rw [List.countP_eq_zero]
      intro e he
      simp only [hpos, decide_eq_true_eq]
      rw [htail e he]
      omega
    have hbound : List.countP pos (elems.take h) ≤ h := by
      calc List.countP pos (elems.take h) ≤ (elems.take h).length :=
            List.countP_le_length _
        _ ≤ h := by rw [List.length_take]; omega
    rw [hsplit, List.countP_append, hzero] at hsub
    omega
  have hbridge : f * (m - 1) + f = f * m := by
    cases m with
    | zero => omega
    | succ m2 => simp [Nat.mul_succ]
  have hmul : f * (m - 1) ≤ h * (m - 1) := Nat.mul_le_mul_right _ hd
  omega

theorem mem_take_of_index (l : List GElem) (n i : Nat) (hi : i < n)
    (hl : i < l.length) : l[i] ∈ l.take n := by
  have h1 : (l.take n)[i]? = some l[i] := by
    rw [List.getElem?_take, if_pos hi]
    exact List.getElem?_eq_getElem hl
  exact List.getElem?_mem h1

theorem mem_pyslice_of_index (l : List GElem) (a b i : Nat) (ha : a ≤ i)
    (hb : i < b) (hl : i < l.length) : l[i] ∈ pyslice l a b := by
  have h1 : (pyslice l a b)[i - a]? = some l[i] := by
    unfold pyslice
    rw [List.getElem?_take, if_pos (by omega), List.getElem?_drop]
    have h2 : a + (i - a) = i := by omega
    rw [h2]
    exact List.getElem?_eq_getElem hl
  exact List.getElem?_mem h1

theorem pyslice_cons (l : List GElem) (j k : Nat) (hj : j < l.length) :
    pyslice l j (j + k + 1) = l[j] :: pyslice l (j + 1) (j + 1 + k) := by
  unfold pyslice
  rw [List.drop_eq_getElem_cons hj]
  have h1 : j + k + 1 - j = k + 1 := by omega
  have h2 : j + 1 + k - (j + 1) = k := by omega
  rw [h1, h2]
  rfl

/-- Safety of the inner conversion loop of `GeneDc.kexpression`: as long as
the number of RNC terminals in the consumed prefix stays at most the Dc
length, every access `self.dc[n_rnc]` and every `rnc_array[index]` lookup is
in range, the RNC counter tracks the number of RNC terminals consumed, and
conversion preserves the arity profile of the chunk. -/
theorem convertChunk_safe (g : GeneDc) (t HT : Nat)
    (hdcval : ∀ k, k < t → ∃ v, g.dc[k]? = some (GElem.num v) ∧ v < g.rncArray.length)
    (hHTlen : HT ≤ g.elems.length)
    (hsymHT : ∀ e ∈ g.elems.take HT, isSym e = true)
    (hrnc0 : ∀ e ∈ g.elems.take HT, rncZero e = true) :
    ∀ a j nRnc, j + a ≤ HT → nRnc = rncTo g.elems j →
      rncTo g.elems (j + a) ≤ t →
      ∃ chunk, convertChunk g a j nRnc = some (chunk, rncTo g.elems (j + a)) ∧
        chunk.map arityOf = (pyslice g.elems j (j + a)).map arityOf ∧
        ∀ e ∈ chunk, isSym e = true := by
  intro a
  induction a with
  | zero =>
    intro j nRnc h1 h2 h3
    refine ⟨[], ?_, by simp [pyslice], by simp⟩
    rw [Nat.add_zero, ← h2]
    rfl
  | succ a ih =>
    intro j nRnc h1 h2 h3
    have hj : j < g.elems.length := by omega
    have hget : g.elems[j]? = some g.elems[j] := List.getElem?_eq_getElem hj
    have hmem : g.elems[j] ∈ g.elems.take HT :=
      mem_take_of_index _ _ _ (by omega) hj
    obtain ⟨s, hs⟩ := isSym_exists _ (hsymHT _ hmem)
    have hsucc := rncTo_succ g.elems j _ hget
    have hplus : j + 1 + a = j + (a + 1) := by omega
    by_cases hr : isRnc g.elems[j]
    · have hkind : s.kind = .rncTerm := by
        rw [hs] at hr
        simpa [isRnc] using hr
      rw [if_pos hr] at hsucc
      have hcnt : nRnc < t := by
        have hmono : rncTo g.elems (j + 1) ≤ rncTo g.elems (j + (a + 1)) :=
          rncTo_mono _ (by omega)
        omega
      obtain ⟨v, hdcv, hvlen⟩ := hdcval nRnc hcnt
      have hrncget : g.rncArray[v]? = some g.rncArray[v] :=
        List.getElem?_eq_getElem hvlen
      have hconv : convert_RNC g nRnc g.elems[j]
          = some (.sym ⟨toString g.rncArray[v], .term, 0⟩, nRnc + 1) := by
        rw [hs]
        simp [convert_RNC, hkind, hdcv, hrncget]
      have harr : arityOf g.elems[j] = 0 := rncZero_arity _ (hrnc0 _ hmem) hr
      obtain ⟨rest, hrest, hmap, hsyms⟩ :=
        ih (j + 1) (nRnc + 1) (by omega) (by omega)
          (by rw [hplus]; exact h3)
      refine ⟨.sym ⟨toString g.rncArray[v], .term, 0⟩ :: rest, ?_, ?_, ?_⟩
      · rw [convertChunk, hget]
        simp only
        rw [hconv]
        simp only
        rw [hrest]
        simp only
        rw [hplus]
      · have hplus2 : j + (a + 1) = j + a + 1 := by omega
        rw [hplus2, pyslice_cons _ _ _ hj]
        simp only [List.map_cons]
        rw [hmap, harr]
        rfl
      · intro e he
        rcases List.mem_cons.mp he with rfl | he2
        · rfl
        · exact hsyms e he2
    · rw [if_neg hr] at hsucc
      have hkind : s.kind ≠ .rncTerm := by
        intro hk
        apply hr
        rw [hs]
        simp [isRnc, hk]
      have hconv : convert_RNC g nRnc g.elems[j] = some (g.elems[j], nRnc) := by
        rw [hs]
        simp [convert_RNC, hkind]
      obtain ⟨rest, hrest, hmap, hsyms⟩ :=
        ih (j + 1) nRnc (by omega) (by omega)
          (by rw [hplus]; exact h3)
      refine ⟨g.elems[j] :: rest, ?_, ?_, ?_⟩
      · rw [convertChunk, hget]
        simp only
        rw [hconv]
        simp only
        rw [hrest]
        simp only
        rw [hplus]
      · have hplus2 : j + (a + 1) = j + a + 1 := by omega
        rw [hplus2, pyslice_cons _ _ _ hj]
        simp only [List.map_cons]
        rw [hmap]
      · intro e he
        rcases List.mem_cons.mp he with rfl | he2
        · rw [hs]; rfl
        · exact hsyms e he2

/-- Safety of the scan loop of `GeneDc.kexpression`: from any reachable
state, the loop runs to completion with every Dc and RNC-array access in
range, and the result never exceeds `head_length + tail_length` symbols. -/
theorem kexprDcLoop_safe (g : GeneDc) (h m t : Nat)
    (hm : 1 ≤ m) (ht : t = h * (m - 1) + 1)
    (hHTlen : h + t ≤ g.elems.length)
    (hdcval : ∀ k, k < t → ∃ v, g.dc[k]? = some (GElem.num v) ∧ v < g.rncArray.length)
    (hsymHT : ∀ e ∈ g.elems.take (h + t), isSym e = true)
    (hb : ∀ e ∈ g.elems.take (h + t), arityOf e ≤ m)
    (hrnc0 : ∀ e ∈ g.elems.take (h + t), rncZero e = true)
    (htail : ∀ e ∈ pyslice g.elems h (h + t), arityOf e = 0) :
    ∀ fuel i j nRnc expr, i ≤ j → j = 1 + sumTo g.elems i → j ≤ h + t →
      nRnc = rncTo g.elems j →
      expr.map arityOf = (g.elems.take j).map arityOf →
      (∀ e ∈ expr, isSym e = true) →
      h + t ≤ fuel + i →
      ∃ expr2, kexprDcLoop g fuel expr i j nRnc = some expr2 ∧
        expr2.length ≤ h + t := by
  intro fuel
  induction fuel with
  | zero =>
    intro i j nRnc expr hij hj hjHT hn hmap hsym2 hfuel
    have hexprlen : expr.length = j := by
      have hlm := congrArg List.length hmap
      simp only [List.length_map, List.length_take] at hlm
      omega
    have hstop : ¬ i < expr.length := by omega
    exact ⟨expr, by rw [kexprDcLoop, if_neg hstop], by omega⟩
  | succ fuel ih =>
    intro i j nRnc expr hij hj hjHT hn hmap hsym2 hfuel
    have hexprlen : expr.length = j := by
      have hlm := congrArg List.length hmap
      simp only [List.length_map, List.length_take] at hlm
      omega
    by_cases hib : i < j
    · have higene : i < g.elems.length := by omega
      have hgeti : g.elems[i]? = some g.elems[i] := List.getElem?_eq_getElem higene
      have hmemi : g.elems[i] ∈ g.elems.take (h + t) :=
        mem_take_of_index _ _ _ (by omega) higene
      have hexi : i < expr.length := by omega
      have hgetexpr : expr[i]? = some expr[i] := List.getElem?_eq_getElem hexi
      have harit : arityOf expr[i] = arityOf g.elems[i] := by
        have h1 : (expr.map arityOf)[i]? = ((g.elems.take j).map arityOf)[i]? := by
          rw [hmap]
        have h2 : (g.elems.take j)[i]? = some g.elems[i] := by
          rw [List.getElem?_take, if_pos hib, hgeti]
        rw [List.getElem?_map, List.getElem?_map, hgetexpr, h2] at h1
        simpa using h1
      obtain ⟨se, hse⟩ := isSym_exists expr[i] (hsym2 _ (List.getElem_mem hexi))
      have hbind : expr[i]?.bind elemArity = some (arityOf g.elems[i]) := by
        rw [hgetexpr, hse]
        show some se.arity = some (arityOf g.elems[i])
        rw [← harit, hse]
        rfl
      have hbridge : h * (m - 1) + h = h * m := by
        cases m with
        | zero => omega
        | succ m2 => simp [Nat.mul_succ]
      have hja : j + arityOf g.elems[i] ≤ h + t := by
        by_cases hih : i < h
        · have h1 : sumTo g.elems i ≤ i * m := by
            apply sumTo_le_mul
            intro e he
            apply hb
            have heq : g.elems.take i = (g.elems.take (h + t)).take i := by
              rw [List.take_take, Nat.min_eq_left (by omega)]
            rw [heq] at he
            exact List.take_subset _ _ he
          have h2 : arityOf g.elems[i] ≤ m := hb _ hmemi
          have h3 : (i + 1) * m ≤ h * m := Nat.mul_le_mul_right m (by omega)
          have h4 : i * m + m = (i + 1) * m := by ring
          omega
        · have hmemsl : g.elems[i] ∈ pyslice g.elems h (h + t) :=
            mem_pyslice_of_index _ _ _ _ (by omega) (by omega) higene
          have ha0 : arityOf g.elems[i] = 0 := htail _ hmemsl
          omega
      have hsumsucc : sumTo g.elems (i + 1) = sumTo g.elems i + arityOf g.elems[i] :=
        sumTo_succ _ i _ hgeti
      have hbound : rncTo g.elems (j + arityOf g.elems[i]) ≤ t :=
        rncTo_le g.elems h m t hm ht hb hrnc0 htail hHTlen (i + 1)
          (j + arityOf g.elems[i]) (by omega) (by omega) hja
      obtain ⟨chunk, hchunk, hchmap, hchsym⟩ :=
        convertChunk_safe g t (h + t) hdcval hHTlen hsymHT hrnc0
          (arityOf g.elems[i]) j nRnc hja hn hbound
      have hmap2 : (expr ++ chunk).map arityOf
          = (g.elems.take (j + arityOf g.elems[i])).map arityOf := by
        rw [List.map_append, hmap, hchmap, ← List.map_append]
        congr 1
        rw [List.take_add]
        congr 1
        unfold pyslice
        rw [Nat.add_sub_cancel_left]
      obtain ⟨expr2, hrun, hlen2⟩ :=
        ih (i + 1) (j + arityOf g.elems[i]) (rncTo g.elems (j + arityOf g.elems[i]))
          (expr ++ chunk) (by omega) (by omega) hja rfl hmap2
          (by
            intro e he
            rcases List.mem_append.mp he with he1 | he2
            · exact hsym2 e he1
            · exact hchsym e he2)
          (by omega)
      refine ⟨expr2, ?_, hlen2⟩
      rw [kexprDcLoop, if_pos (by omega : i < expr.length), hbind]
      simp only
      rw [hchunk]
      simp only
      exact hrun
    · have hstop : ¬ i < expr.length := by omega
      exact ⟨expr, by rw [kexprDcLoop, if_neg hstop], by omega⟩

theorem isDcEntry_num (rncLen : Nat) (e : GElem) (h : isDcEntry rncLen e = true) :
    ∃ v, e = GElem.num v ∧ v < rncLen := by
  cases e with
  | sym s => simp [isDcEntry] at h
  | num v =>
    refine ⟨v, rfl, ?_⟩
    simpa [isDcEntry] using h

theorem rncTo_zero (gene : List GElem) : rncTo gene 0 = 0 := by
  simp [rncTo, rncCount]

/-- C10: for every `GeneDc` satisfying the layout invariant — tail and Dc
domains of length `head_length * (max_arity - 1) + 1`, tail containing only
terminals, every Dc entry an integer in `[0, len(rnc_array))` —
`GeneDc.kexpression` succeeds: it resolves at most `dc_length` RNC terminals
during the breadth-first scan, so every access `self.dc[n_rnc]` and every
subsequent `rnc_array[index]` lookup is within bounds (an out-of-range access
is the `none` case of the embedding, which is never reached), and the
returned K-expression stays within the `head + tail` region. -/
theorem kexpression_dc_safe (g : GeneDc) (m t : Nat)
    (hm : 1 ≤ m) (ht : t = g.headLen * (m - 1) + 1)
    (hlen : g.elems.length = g.headLen + 2 * t)
    (hsymHT : ∀ e ∈ g.elems.take (g.headLen + t), isSym e = true)
    (hb : ∀ e ∈ g.elems.take (g.headLen + t), arityOf e ≤ m)
    (hrnc0 : ∀ e ∈ g.elems.take (g.headLen + t), rncZero e = true)
    (htail : ∀ e ∈ pyslice g.elems g.headLen (g.headLen + t), arityOf e = 0)
    (hdc : ∀ e ∈ g.elems.drop (g.headLen + t), isDcEntry g.rncArray.length e = true) :
    ∃ expr, kexpression_dc g = some expr ∧ expr.length ≤ g.headLen + t := by
  have htpos : 1 ≤ t := by omega
  have hHTlen : g.headLen + t ≤ g.elems.length := by omega
  have htl : g.tail_length = t := by
    unfold GeneDc.tail_length
    omega
  have hdceq : g.dc = g.elems.drop (g.headLen + t) := by
    unfold GeneDc.dc GeneDc.dc_length
    rw [htl]
    unfold pyslice
    have h1 : g.headLen + t + t - (g.headLen + t) = t := by omega
    rw [h1]
    apply List.take_of_length_le
    rw [List.length_drop]
    omega
  have hdcval : ∀ k, k < t →
      ∃ v, g.dc[k]? = some (GElem.num v) ∧ v < g.rncArray.length := by
    intro k hk
    have hk2 : k < (g.elems.drop (g.headLen + t)).length := by
      rw [List.length_drop]; omega
    have hget : (g.elems.drop (g.headLen + t))[k]?
        = some ((g.elems.drop (g.headLen + t))[k]) := List.getElem?_eq_getElem hk2
    have hmem : (g.elems.drop (g.headLen + t))[k] ∈ g.elems.drop (g.headLen + t) :=
      List.getElem_mem hk2
    obtain ⟨v, hv, hvlen⟩ := isDcEntry_num _ _ (hdc _ hmem)
    refine ⟨v, ?_, hvlen⟩
    rw [hdceq, hget, hv]
  have hlenpos : 0 < g.elems.length := by omega
  have hget0 : g.elems[0]? = some g.elems[0] := List.getElem?_eq_getElem hlenpos
  have hrnc1 : rncTo g.elems 1 ≤ t :=
    rncTo_le g.elems g.headLen m t hm ht hb hrnc0 htail hHTlen 0 1
      (by omega) (by rw [sumTo_zero]) (by omega)
  obtain ⟨chunk, hchunk, hchmap, hchsym⟩ :=
    convertChunk_safe g t (g.headLen + t) hdcval hHTlen hsymHT hrnc0 1 0 0
      (by omega) (by rw [rncTo_zero]) (by simpa using hrnc1)
  cases hcr : convert_RNC g 0 g.elems[0] with
  | none =>
    exfalso
    rw [convertChunk, hget0] at hchunk
    simp only at hchunk
    rw [hcr] at hchunk
    simp at hchunk
  | some p2n =>
    obtain ⟨p2, n2⟩ := p2n
    have hchunk2 : convertChunk g 1 0 0 = some ([p2], n2) := by
      rw [convertChunk, hget0]
      simp only
      rw [hcr]
      rfl
    rw [hchunk2] at hchunk
    simp only [Option.some.injEq, Prod.mk.injEq] at hchunk
    obtain ⟨hchunkeq, hn2⟩ := hchunk
    rw [Nat.zero_add] at hn2
    have hps : pyslice g.elems 0 (0 + 1) = g.elems.take 1 := by
      unfold pyslice
      simp
    have hmap1 : List.map arityOf [p2] = List.map arityOf (g.elems.take 1) := by
      rw [hchunkeq, hchmap, hps]
    obtain ⟨expr2, hrun, hlen2⟩ :=
      kexprDcLoop_safe g g.headLen m t hm ht hHTlen hdcval hsymHT hb hrnc0 htail
        g.elems.length 0 1 n2 [p2] (by omega) (by rw [sumTo_zero]) (by omega)
        (by rw [hn2]) hmap1
        (by
          intro e he
          rcases List.mem_cons.mp he with rfl | he2
          · exact hchsym e (by rw [← hchunkeq]; simp)
          · simp at he2)
        (by omega)
    refine ⟨expr2, ?_, hlen2⟩
    rw [kexpression_dc, hget0]
    simp only
    rw [hcr]
    exact hrun

/-- The RNC placeholder terminal (`RNCTerminal('?')`). -/
def rncQ : Symbol := ⟨"?", .rncTerm, 0⟩

/-- A concrete `GeneDc` with `head_length = 1`, `max_arity = 2`, hence
`tail_length = dc_length = 2`: genome `[AND, ?, a]`, Dc `[0, 1]`, RNC array
`[5, 7]`. -/
def geneDcEx : GeneDc where
  elems := [.sym AND, .sym rncQ, .sym termA, .num 0, .num 1]
  headLen := 1
  rncArray := [5, 7]

/-- Witness for `kexpression_dc_safe` at the concrete gene `geneDcEx`. -/
theorem kexpression_dc_safe_witness :
    ((1 : Nat) ≤ 2 ∧ (2 : Nat) = geneDcEx.headLen * (2 - 1) + 1 ∧
      geneDcEx.elems.length = geneDcEx.headLen + 2 * 2 ∧
      (∀ e ∈ geneDcEx.elems.take (geneDcEx.headLen + 2), isSym e = true) ∧
      (∀ e ∈ geneDcEx.elems.take (geneDcEx.headLen + 2), arityOf e ≤ 2) ∧
      (∀ e ∈ geneDcEx.elems.take (geneDcEx.headLen + 2), rncZero e = true) ∧
      (∀ e ∈ pyslice geneDcEx.elems geneDcEx.headLen (geneDcEx.headLen + 2),
        arityOf e = 0) ∧
      (∀ e ∈ geneDcEx.elems.drop (geneDcEx.headLen + 2),
        isDcEntry geneDcEx.rncArray.length e = true)) ∧
    ∃ expr, kexpression_dc geneDcEx = some expr ∧
      expr.length ≤ geneDcEx.headLen + 2 :=
  ⟨⟨by decide, by decide, by decide, by decide, by decide, by decide, by decide,
    by decide⟩,
   kexpression_dc_safe geneDcEx 2 2 (by decide) (by decide) (by decide)
     (by decide) (by decide) (by decide) (by decide) (by decide)⟩

/-! ### Genes and chromosomes as seen by the genetic operators -/

/-- A gene as manipulated by the operators of `geppy.tools.mutation` and
`geppy.tools.crossover`: the flat element list plus the per-object data the
operators read — `_head_length`, whether the object is a `GeneDc` (which
changes how `tail_length` is derived), and the attached RNC array.  The
operators mutate only the list content; the attributes travel with the gene
object, exactly as slice assignment leaves Python attributes untouched. -/
structure PyGene where
  elems : List GElem
  headLen : Nat
  isDc : Bool
  rnc : List Int
deriving DecidableEq

/-- `Gene.tail_length` (entity.py 213-217) or `GeneDc.tail_length`
(entity.py 339-344), depending on the class of the gene. -/
def PyGene.tail_length (g : PyGene) : Nat :=
  if g.isDc then (g.elems.length - g.headLen) / 2 else g.elems.length - g.headLen

/-- `GeneDc.dc_length` (entity.py 325-330). -/
def PyGene.dc_length (g : PyGene) : Nat := g.tail_length

/-- `isinstance(p, Function)` on a gene element. -/
def isFunction : GElem → Bool
  | .sym s => s.kind == .func
  | .num _ => false

/-- `_choose_subsequence(seq, min_length, max_length)` (mutation.py 29-34).
Only `len(seq)` matters.  Returns the pair `(start, start + length)`. -/
def choose_subsequence (seqLen minLen : Nat) (maxLen : Int) (lenD startD : Nat) :
    Option (Nat × Nat) :=
  let maxLen2 : Int := if maxLen ≤ 0 then (seqLen : Int) else maxLen
  (randint minLen maxLen2 lenD).bind fun L =>
  (randint 0 ((seqLen : Int) - L) startD).bind fun s =>
  some (s, s + L)

/-- `_choose_subsequence_indices(i, j, min_length, max_length)`
(mutation.py 37-46): a subsequence of `[i, j]`, both boundaries included. -/
def choose_subsequence_indices (i : Nat) (j : Int) (minLen : Nat) (maxLen : Int)
    (lenD startD : Nat) : Option (Nat × Nat) :=
  let maxLen2 : Int := if maxLen ≤ 0 then j - i + 1 else maxLen
  (randint minLen maxLen2 lenD).bind fun L =>
  (randint i (j - L + 1) startD).bind fun s =>
  some (s, s + L - 1)

/-- `invert` (mutation.py 115-132): choose a gene, reverse a random
subsequence of length in `[2, head_length]` inside its head; a chromosome
with `head_length < 2` is returned unchanged. -/
def invert (ch : List PyGene) (giD lenD startD : Nat) : Option (List PyGene) :=
  match ch[0]? with
  | none => none
  | some g0 =>
    if g0.headLen < 2 then some ch
    else
      (randint 0 ((ch.length : Int) - 1) giD).bind fun gi =>
      match ch[gi]? with
      | none => none
      | some gene =>
        (choose_subsequence (gene.elems.take gene.headLen).length 2
            (gene.headLen : Int) lenD startD).bind fun se =>
        some (ch.set gi
          { gene with
              elems := gene.elems.take se.1 ++
                (pyslice gene.elems se.1 se.2).reverse ++ gene.elems.drop se.2 })

/-- `is_transpose` (mutation.py 161-183): copy a random insertion sequence
from the donor's head+tail region and splice it into the donee's head at a
position in `[1, head_length - len(is))`, truncating the shifted remainder
and reattaching everything from `head_length` on unchanged. -/
def is_transpose (ch : List PyGene) (i1D i2D lenD startD posD : Nat) :
    Option (List PyGene) :=
  (randint 0 ((ch.length : Int) - 1) i1D).bind fun i1 =>
  (randint 0 ((ch.length : Int) - 1) i2D).bind fun i2 =>
  match (ch[i1]?), (ch[i2]?) with
  | some donor, some donee =>
    (choose_subsequence_indices 0 ((donor.headLen : Int) + donor.tail_length - 1) 1
        ((donee.headLen : Int) - 1) lenD startD).bind fun ab =>
    let is_ := pyslice donor.elems ab.1 (ab.2 + 1)
    (randint 1 ((donee.headLen : Int) - is_.length) posD).bind fun ip =>
    some (ch.set i2
      { donee with
          elems := donee.elems.take ip ++ is_ ++
            pyslice donee.elems ip (ip + donee.headLen - ip - is_.length) ++
            donee.elems.drop donee.headLen })
  | _, _ => none

/-- Random draws consumed by one iteration of the `ris_transpose` retry
loop. -/
structure RisDraw where
  i1D : Nat
  i2D : Nat
  fD : Nat
  lenD : Nat
deriving DecidableEq

/-- Outcome of one iteration of the `ris_transpose` loop: an error
(`ValueError` on an empty `randint` range), a retry because the donor head
holds no function, or a finished individual. -/
inductive RisOutcome where
  | err
  | retry
  | done (c : List PyGene)

/-- One iteration of `ris_transpose` (mutation.py 198-214): pick donor and
donee, pick a function position in the donor's head as the RIS start, pick a
length in `[2, min(donee.head_length, donor.head_length + donor.tail_length
- ris_start)]`, and splice the RIS at position 0 of the donee's head,
truncating to preserve the head length. -/
def ris_attempt (ch : List PyGene) (d : RisDraw) : RisOutcome :=
  match randint 0 ((ch.length : Int) - 1) d.i1D,
      randint 0 ((ch.length : Int) - 1) d.i2D with
  | some i1, some i2 =>
    match (ch[i1]?), (ch[i2]?) with
    | some donor, some donee =>
      let fis := List.findIdxs isFunction (donor.elems.take donor.headLen)
      if fis.length = 0 then .retry
      else
        match fis[d.fD]? with
        | none => .err
        | some ris_start =>
          match randint 2 (min (donee.headLen : Int)
              ((donor.headLen : Int) + donor.tail_length - ris_start)) d.lenD with
          | none => .err
          | some L =>
            let ris := pyslice donor.elems ris_start (ris_start + L)
            .done (ch.set i2
              { donee with
                  elems := ris ++ donee.elems.take (donee.headLen - L) ++
                    donee.elems.drop donee.headLen })
    | _, _ => .err
  | _, _ => .err

/-- The retry loop of `ris_transpose`: `n_trial` runs from 0 while
`n_trial ≤ 2 * len(individual)`, so at most `2 * len + 1` attempts are made;
when every attempt finds a function-free donor head the individual is
returned unchanged.  Running out of provided draws is `none`. -/
def ris_loop (ch : List PyGene) : Nat → List RisDraw → Option (List PyGene)
  | 0, _ => some ch
  | _ + 1, [] => none
  | n + 1, d :: ds =>
    match ris_attempt ch d with
    | .err => none
    | .retry => ris_loop ch n ds
    | .done c2 => some c2

/-- `ris_transpose` (mutation.py 186-215). -/
def ris_transpose (ch : List PyGene) (draws : List RisDraw) : Option (List PyGene) :=
  ris_loop ch (2 * ch.length + 1) draws

/-- `gene_transpose` (mutation.py 218-236): swap a random gene at index ≥ 1
with gene 0; a single-gene chromosome is returned unchanged. -/
def gene_transpose (ch : List PyGene) (srcD : Nat) : Option (List PyGene) :=
  if ch.length ≤ 1 then some ch
  else
    (randint 1 ((ch.length : Int) - 1) srcD).bind fun src =>
    match (ch[0]?), (ch[src]?) with
    | some g0, some gs => some ((ch.set 0 gs).set src g0)
    | _, _ => none

/-- `crossover_one_point` (crossover.py 23-45): assert equal gene counts,
pick a gene and a point inside it, and swap all material at and before that
point.  The gene objects before the cut gene are exchanged whole; the cut
gene objects keep their attributes and exchange element prefixes. -/
def crossover_one_point (ind1 ind2 : List PyGene) (wgD wpD : Nat) :
    Option (List PyGene × List PyGene) :=
  if ind1.length = ind2.length then
    (randint 0 ((ind1.length : Int) - 1) wgD).bind fun wg =>
    match (ind1[wg]?), (ind2[wg]?) with
    | some gA, some gB =>
      (randint 0 ((gA.elems.length : Int) - 1) wpD).bind fun wp =>
      some (ind2.take wg ++
              { gA with elems := gB.elems.take (wp + 1) ++ gA.elems.drop (wp + 1) } ::
              ind1.drop (wg + 1),
            ind1.take wg ++
              { gB with elems := gA.elems.take (wp + 1) ++ gB.elems.drop (wp + 1) } ::
              ind2.drop (wg + 1))
    | _, _ => none
  else none

/-- `crossover_two_point` (crossover.py 48-79): assert equal gene counts,
draw two gene indices with replacement and order them, draw one point in
each, and swap everything strictly between the two cut points; when both
cuts land in the same gene only the enclosed slice is swapped. -/
def crossover_two_point (ind1 ind2 : List PyGene) (gAD gBD p1D p2D : Nat) :
    Option (List PyGene × List PyGene) :=
  if ind1.length = ind2.length then
    (randint 0 ((ind1.length : Int) - 1) gAD).bind fun gA =>
    (randint 0 ((ind1.length : Int) - 1) gBD).bind fun gB =>
    let g1 := min gA gB
    let g2 := max gA gB
    match (ind1[g1]?), (ind1[g2]?), (ind2[g1]?), (ind2[g2]?) with
    | some a1, some a2, some b1, some b2 =>
      (randint 0 ((a1.elems.length : Int) - 1) p1D).bind fun p1 =>
      (randint 0 ((a2.elems.length : Int) - 1) p2D).bind fun p2 =>
      if g1 = g2 then
        let q1 := min p1 p2
        let q2 := max p1 p2
        some (ind1.set g1
                { a1 with
                    elems := a1.elems.take q1 ++ pyslice b1.elems q1 (q2 + 1) ++
                      a1.elems.drop (q2 + 1) },
              ind2.set g1
                { b1 with
                    elems := b1.elems.take q1 ++ pyslice a1.elems q1 (q2 + 1) ++
                      b1.elems.drop (q2 + 1) })
      else
        some (ind1.take g1 ++
                { a1 with elems := a1.elems.take p1 ++ b1.elems.drop p1 } ::
                (pyslice ind2 (g1 + 1) g2 ++
                  { a2 with elems := b2.elems.take (p2 + 1) ++ a2.elems.drop (p2 + 1) } ::
                  ind1.drop (g2 + 1)),
              ind2.take g1 ++
                { b1 with elems := b1.elems.take p1 ++ a1.elems.drop p1 } ::
                (pyslice ind1 (g1 + 1) g2 ++
                  { b2 with elems := a2.elems.take (p2 + 1) ++ b2.elems.drop (p2 + 1) } ::
                  ind2.drop (g2 + 1)))
    | _, _, _, _ => none
  else none

/-- `crossover_gene` (crossover.py 82-99): assert equal gene counts, pick one
gene index per parent independently with replacement, and swap those two
whole genes between the parents. -/
def crossover_gene (ind1 ind2 : List PyGene) (p1D p2D : Nat) :
    Option (List PyGene × List PyGene) :=
  if ind1.length = ind2.length then
    (randint 0 ((ind1.length : Int) - 1) p1D).bind fun pos1 =>
    (randint 0 ((ind1.length : Int) - 1) p2D).bind fun pos2 =>
    match (ind1[pos1]?), (ind2[pos2]?) with
    | some gA, some gB => some (ind1.set pos1 gB, ind2.set pos2 gA)
    | _, _ => none
  else none

/-- Inner loop of `mutate_uniform_dc` over the Dc positions of one gene
(mutation.py 109-111): for each index `i` in the Dc range, when the Bernoulli
draw `random.random() < ind_pb` fires (the Boolean `dec i`, floats being
outside the embedding), overwrite `g[i]` with
`random.randint(0, len(rnc_array) - 1)`. -/
def mutate_dc_positions (rncLen : Nat) (dec : Nat → Bool) (vals : Nat → Nat) :
    List Nat → List GElem → Option (List GElem)
  | [], es => some es
  | i :: rest, es =>
    if dec i then
      (randint 0 ((rncLen : Int) - 1) (vals i)).bind fun v =>
      mutate_dc_positions rncLen dec vals rest (es.set i (.num v))
    else mutate_dc_positions rncLen dec vals rest es

/-- `mutate_uniform_dc` restricted to one gene: the loop body
`for i in range(start, end)` with `start = head_length + tail_length` and
`end = start + dc_length`. -/
def mutate_uniform_dc_gene (g : PyGene) (dec : Nat → Bool) (vals : Nat → Nat) :
    Option PyGene :=
  (mutate_dc_positions g.rnc.length dec vals
      (List.range' (g.headLen + g.tail_length) g.dc_length) g.elems).map
    fun es => { g with elems := es }

/-- Gene-by-gene loop of `mutate_uniform_dc`, threading the gene index for
the dependency-injected randomness. -/
def mutate_uniform_dc_go (dec : Nat → Nat → Bool) (vals : Nat → Nat → Nat) :
    Nat → List PyGene → Option (List PyGene)
  | _, [] => some []
  | k, g :: gs =>
    (mutate_uniform_dc_gene g (dec k) (vals k)).bind fun g2 =>
    (mutate_uniform_dc_go dec vals (k + 1) gs).map fun gs2 => g2 :: gs2

/-- `mutate_uniform_dc` (mutation.py 86-112). -/
def mutate_uniform_dc (ch : List PyGene) (dec : Nat → Nat → Bool)
    (vals : Nat → Nat → Nat) : Option (List PyGene) :=
  mutate_uniform_dc_go dec vals 0 ch

/-- `generate_dc` (generator.py 42-52): `dc_length` draws of
`random.randint(0, rnc_array_length - 1)`. -/
def generate_dc (rnc_array_length dc_length : Nat) (draws : Nat → Nat) :
    Option (List Nat) :=
  mapOption (fun k => randint 0 ((rnc_array_length : Int) - 1) (draws k))
    (List.range dc_length)

theorem mapOption_inv {α β : Type} (f : α → Option β) :
    ∀ l ys, mapOption f l = some ys →
      ys.length = l.length ∧ ∀ y ∈ ys, ∃ x ∈ l, f x = some y := by
  intro l
  induction l with
  | nil =>
    intro ys h
    have : ys = [] := (Option.some.inj h).symm
    subst this
    exact ⟨rfl, by simp⟩
  | cons a l ih =>
    intro ys h
    rw [mapOption] at h
    cases hfa : f a with
    | none => rw [hfa] at h; cases h
    | some b =>
      rw [hfa] at h
      simp only at h
      cases hrec : mapOption f l with
      | none => rw [hrec] at h; cases h
      | some bs =>
        rw [hrec] at h
        simp only at h
        have hys : ys = b :: bs := (Option.some.inj h).symm
        subst hys
        obtain ⟨hlen, hall⟩ := ih bs hrec
        refine ⟨by simp [hlen], ?_⟩
        intro y hy
        rcases List.mem_cons.mp hy with rfl | hy2
        · exact ⟨a, by simp, hfa⟩
        · obtain ⟨x, hx, hfx⟩ := hall y hy2
          exact ⟨x, by simp [hx], hfx⟩

theorem randint_some {lo : Nat} {hi : Int} {x y : Nat}
    (h : randint lo hi x = some y) :
    y = x ∧ lo ≤ x ∧ (x : Int) ≤ hi := by
  unfold randint at h
  by_cases hc : lo ≤ x ∧ (x : Int) ≤ hi
  · rw [if_pos hc] at h
    exact ⟨(Option.some.inj h).symm, hc.1, hc.2⟩
  · rw [if_neg hc] at h
    cases h

theorem randint_is_some {lo : Nat} {hi : Int} {x : Nat}
    (h1 : lo ≤ x) (h2 : (x : Int) ≤ hi) : randint lo hi x = some x := by
  unfold randint
  rw [if_pos ⟨h1, h2⟩]

/-- What one pass of the Dc-mutation loop does to the element list: the
length is kept, positions outside the visited index list are untouched, and
every position is either untouched or overwritten with an integer in
`[0, rncLen)`. -/
theorem mutate_dc_positions_spec (rncLen : Nat) (dec : Nat → Bool)
    (vals : Nat → Nat) :
    ∀ (idxs : List Nat) (es es2 : List GElem),
      mutate_dc_positions rncLen dec vals idxs es = some es2 →
      es2.length = es.length ∧
      (∀ p, p ∉ idxs → es2[p]? = es[p]?) ∧
      (∀ p : Nat, es2[p]? = es[p]? ∨ ∃ v, v < rncLen ∧ es2[p]? = some (GElem.num v)) := by
  intro idxs
  induction idxs with
  | nil =>
    intro es es2 h
    have hes : es2 = es := (Option.some.inj h).symm
    subst hes
    exact ⟨rfl, fun p _ => rfl, fun p => Or.inl rfl⟩
  | cons i rest ih =>
    intro es es2 h
    rw [mutate_dc_positions] at h
    by_cases hdec : dec i
    · rw [if_pos hdec] at h
      rw [Option.bind_eq_some] at h
      obtain ⟨v, hv, hrest⟩ := h
      obtain ⟨hvx, hv0, hvhi⟩ := randint_some hv
      have hvlt : v < rncLen := by omega
      obtain ⟨hlen, hout, hall⟩ := ih (es.set i (GElem.num v)) es2 hrest
      rw [List.length_set] at hlen
      refine ⟨hlen, ?_, ?_⟩
      · intro p hp
        have hpi : p ≠ i := fun hc => hp (by simp [hc])
        have hpr : p ∉ rest := fun hc => hp (by simp [hc])
        rw [hout p hpr, List.getElem?_set, if_neg (fun hc => hpi hc.symm)]
      · intro p
        rcases hall p with heq | hnew
        · rw [heq, List.getElem?_set]
          by_cases hpi : i = p
          · subst hpi
            by_cases hilt : i < es.length
            · rw [if_pos rfl, if_pos hilt]
              exact Or.inr ⟨v, hvlt, rfl⟩
            · rw [if_pos rfl, if_neg hilt]
              left
              rw [List.getElem?_eq_none (by omega)]
          · rw [if_neg hpi]
            exact Or.inl rfl
        · exact Or.inr hnew
    · rw [if_neg hdec] at h
      obtain ⟨hlen, hout, hall⟩ := ih es es2 h
      refine ⟨hlen, ?_, hall⟩
      intro p hp
      exact hout p (fun hc => hp (by simp [hc]))

/-- What `mutate_uniform_dc` does to one gene: attributes and length kept,
all head and tail positions untouched, every Dc position either untouched or
overwritten with an integer in `[0, len(rnc_array))`. -/
theorem mutate_uniform_dc_gene_spec (g g2 : PyGene) (dec : Nat → Bool)
    (vals : Nat → Nat) (h : mutate_uniform_dc_gene g dec vals = some g2) :
    g2.headLen = g.headLen ∧ g2.isDc = g.isDc ∧ g2.rnc = g.rnc ∧
    g2.elems.length = g.elems.length ∧
    (∀ p, p < g.headLen + g.tail_length → g2.elems[p]? = g.elems[p]?) ∧
    (∀ p : Nat, g2.elems[p]? = g.elems[p]? ∨
      ∃ v, v < g.rnc.length ∧ g2.elems[p]? = some (GElem.num v)) := by
  unfold mutate_uniform_dc_gene at h
  rw [Option.map_eq_some'] at h
  obtain ⟨es, hes, hg2⟩ := h
  obtain ⟨hlen, hout, hall⟩ := mutate_dc_positions_spec _ _ _ _ _ _ hes
  subst hg2
  refine ⟨rfl, rfl, rfl, hlen, ?_, hall⟩
  intro p hp
  apply hout
  rw [List.mem_range'_1]
  omega

/-- What `mutate_uniform_dc` does to a chromosome, gene by gene. -/
theorem mutate_uniform_dc_go_spec (dec : Nat → Nat → Bool)
    (vals : Nat → Nat → Nat) :
    ∀ (gs : List PyGene) (k : Nat) (gs2 : List PyGene),
      mutate_uniform_dc_go dec vals k gs = some gs2 →
      gs2.length = gs.length ∧
      ∀ (p : Nat) (g g2 : PyGene), gs[p]? = some g → gs2[p]? = some g2 →
        g2.headLen = g.headLen ∧ g2.isDc = g.isDc ∧ g2.rnc = g.rnc ∧
        g2.elems.length = g.elems.length ∧
        (∀ q, q < g.headLen + g.tail_length → g2.elems[q]? = g.elems[q]?) ∧
        (∀ q : Nat, g2.elems[q]? = g.elems[q]? ∨
          ∃ v, v < g.rnc.length ∧ g2.elems[q]? = some (GElem.num v)) := by
  intro gs
  induction gs with
  | nil =>
    intro k gs2 h
    have : gs2 = [] := (Option.some.inj h).symm
    subst this
    exact ⟨rfl, fun p g g2 hg _ => by cases hg⟩
  | cons g gs ih =>
    intro k gs2 h
    rw [mutate_uniform_dc_go, Option.bind_eq_some] at h
    obtain ⟨g2, hg2, hmap⟩ := h
    rw [Option.map_eq_some'] at hmap
    obtain ⟨gs2t, hgs2t, rfl⟩ := hmap
    obtain ⟨hlen, hrest⟩ := ih (k + 1) gs2t hgs2t
    constructor
    · simp [hlen]
    · intro p ga ga2 hga hga2
      cases p with
      | zero =>
        simp only [List.getElem?_cons_zero, Option.some.injEq] at hga hga2
        subst hga
        subst hga2
        exact mutate_uniform_dc_gene_spec _ _ _ _ hg2
      | succ p =>
        simp only [List.getElem?_cons_succ] at hga hga2
        exact hrest p ga ga2 hga hga2

/-- C8: every Dc index ever written is a valid index into the gene's RNC
array.  `generate_dc(rnc_array_length, dc_length)` returns exactly
`dc_length` integers, each in `[0, rnc_array_length)` (and succeeds whenever
the injected draws are in range), and `mutate_uniform_dc` only ever
overwrites a Dc position with an integer in `[0, len(rnc_array))` while
leaving every head and tail position (and the gene attributes and lengths)
unchanged. -/
theorem generate_dc_mutate_dc_ranges :
    (∀ (rncLen dcLen : Nat) (draws : Nat → Nat) (l : List Nat),
      generate_dc rncLen dcLen draws = some l →
      l.length = dcLen ∧ ∀ v ∈ l, v < rncLen) ∧
    (∀ rncLen dcLen (draws : Nat → Nat), (∀ k, k < dcLen → draws k < rncLen) →
      ∃ l, generate_dc rncLen dcLen draws = some l) ∧
    (∀ (ch : List PyGene) (dec : Nat → Nat → Bool) (vals : Nat → Nat → Nat)
      (ch2 : List PyGene), mutate_uniform_dc ch dec vals = some ch2 →
      ch2.length = ch.length ∧
      ∀ (p : Nat) (g g2 : PyGene), ch[p]? = some g → ch2[p]? = some g2 →
        g2.headLen = g.headLen ∧ g2.isDc = g.isDc ∧ g2.rnc = g.rnc ∧
        g2.elems.length = g.elems.length ∧
        (∀ q, q < g.headLen + g.tail_length → g2.elems[q]? = g.elems[q]?) ∧
        (∀ q : Nat, g2.elems[q]? = g.elems[q]? ∨
          ∃ v, v < g.rnc.length ∧ g2.elems[q]? = some (GElem.num v))) := by
  refine ⟨?_, ?_, ?_⟩
  · intro rncLen dcLen draws l h
    unfold generate_dc at h
    obtain ⟨hlen, hall⟩ := mapOption_inv _ _ _ h
    refine ⟨by rw [hlen, List.length_range], ?_⟩
    intro v hv
    obtain ⟨k, _, hk⟩ := hall v hv
    obtain ⟨rfl, _, hhi⟩ := randint_some hk
    omega
  · intro rncLen dcLen draws hd
    obtain ⟨l, hl, _⟩ :=
      mapOption_some (fun k => randint 0 ((rncLen : Int) - 1) (draws k))
        (fun _ => True) (List.range dcLen)
        (by
          intro k hk
          refine ⟨draws k, randint_is_some (Nat.zero_le _) ?_, trivial⟩
          have := hd k (List.mem_range.mp hk)
          omega)
    exact ⟨l, hl⟩
  · intro ch dec vals ch2 h
    exact mutate_uniform_dc_go_spec dec vals ch 0 ch2 h

/-- A concrete `GeneDc`-style gene for the Dc-mutation witness: head `[a]`,
tail `[b]`, Dc `[0]`, RNC array `[4, 6]`. -/
def geneDcM : PyGene := ⟨[.sym termA, .sym termB, .num 0], 1, true, [4, 6]⟩

/-- `geneDcM` after Dc mutation wrote index 1 at the single Dc position. -/
def geneDcM2 : PyGene := ⟨[.sym termA, .sym termB, .num 1], 1, true, [4, 6]⟩

/-- Witness for `generate_dc_mutate_dc_ranges` at concrete inputs: two Dc
draws out of an RNC array of length 3, and a Dc mutation of `[geneDcM]`
hitting its single Dc position. -/
theorem generate_dc_mutate_dc_ranges_witness :
    (([1, 1] : List Nat).length = 2 ∧ ∀ v ∈ ([1, 1] : List Nat), v < 3) ∧
    (∃ l, generate_dc 3 2 (fun _ => 1) = some l) ∧
    ([geneDcM2].length = [geneDcM].length) :=
  ⟨generate_dc_mutate_dc_ranges.1 3 2 (fun _ => 1) [1, 1] (by decide),
   generate_dc_mutate_dc_ranges.2.1 3 2 (fun _ => 1) (by decide),
   (generate_dc_mutate_dc_ranges.2.2 [geneDcM] (fun _ i => i == 2)
     (fun _ _ => 1) [geneDcM2] (by decide)).1⟩

theorem take_pyslice_drop {α : Type} (l : List α) (s e : Nat) (hse : s ≤ e) :
    l.take s ++ (pyslice l s e ++ l.drop e) = l := by
  unfold pyslice
  have hd : l.drop e = (l.drop s).drop (e - s) := by
    rw [List.drop_drop]
    congr 1
    omega
  rw [hd, List.take_append_drop, List.take_append_drop]

/-- C5: for every chromosome with `head_length ≥ 2` (and well-formed gene
lengths), a successful application of `invert` keeps the gene count, changes
exactly one gene, and in that gene: attributes, length (hence head and tail
lengths) and the multiset of symbols are unchanged, while only the order
inside one contiguous head subsequence `[s, e)` of length between 2 and
`head_length` changes — positions before `s` and from `e` on are untouched
and the subsequence is reversed in place. -/
theorem invert_preserves (ch : List PyGene) (H : Nat)
    (hH : ∀ g ∈ ch, g.headLen = H)
    (hwf : ∀ g ∈ ch, H ≤ g.elems.length)
    (h2 : 2 ≤ H) :
    ∀ giD lenD startD ch2, invert ch giD lenD startD = some ch2 →
      ch2.length = ch.length ∧
      ∃ gi s e, gi < ch.length ∧ s ≤ e ∧ e ≤ H ∧ 2 ≤ e - s ∧ e - s ≤ H ∧
        (∀ k : Nat, k ≠ gi → ch2[k]? = ch[k]?) ∧
        ∀ g g2, ch[gi]? = some g → ch2[gi]? = some g2 →
          g2.headLen = g.headLen ∧ g2.isDc = g.isDc ∧ g2.rnc = g.rnc ∧
          g2.elems.length = g.elems.length ∧
          (g2.elems : Multiset GElem) = (g.elems : Multiset GElem) ∧
          (∀ p : Nat, p < s → g2.elems[p]? = g.elems[p]?) ∧
          (∀ p : Nat, e ≤ p → g2.elems[p]? = g.elems[p]?) ∧
          g2.elems = g.elems.take s ++ (pyslice g.elems s e).reverse ++
            g.elems.drop e := by
  intro giD lenD startD ch2 h
  unfold invert at h
  cases h0 : ch[0]? with
  | none => rw [h0] at h; cases h
  | some g0 =>
    rw [h0] at h
    simp only at h
    have hg0 : g0 ∈ ch := List.getElem?_mem h0
    rw [if_neg (by rw [hH g0 hg0]; omega)] at h
    rw [Option.bind_eq_some] at h
    obtain ⟨gi, hgidraw, h⟩ := h
    obtain ⟨hgieq, hgi0, hgihi⟩ := randint_some hgidraw
    have hgilt : gi < ch.length := by omega
    cases hgig : ch[gi]? with
    | none => rw [hgig] at h; cases h
    | some gene =>
      rw [hgig] at h
      simp only at h
      have hgene : gene ∈ ch := List.getElem?_mem hgig
      have hgH : gene.headLen = H := hH gene hgene
      have hgwf : H ≤ gene.elems.length := hwf gene hgene
      have hseq : (gene.elems.take gene.headLen).length = H := by
        rw [List.length_take, hgH]
        omega
      unfold choose_subsequence at h
      rw [hseq] at h
      simp only at h
      rw [if_neg (by rw [hgH]; omega)] at h
      rw [Option.bind_eq_some] at h
      obtain ⟨se, hse, h⟩ := h
      rw [Option.bind_eq_some] at hse
      obtain ⟨L, hLdraw, hse⟩ := hse
      obtain ⟨hLeq, hL2, hLhi⟩ := randint_some hLdraw
      rw [hgH] at hLhi
      have hLH : L ≤ H := by omega
      rw [Option.bind_eq_some] at hse
      obtain ⟨st, hstdraw, hse⟩ := hse
      obtain ⟨hsteq, hst0, hsthi⟩ := randint_some hstdraw
      have hstH : st + L ≤ H := by omega
      have hsepair : (st, st + L) = se := Option.some.inj hse
      have hse1 : se.1 = st := by rw [← hsepair]
      have hse2 : se.2 = st + L := by rw [← hsepair]
      rw [hse1, hse2] at h
      simp only [Option.some.injEq] at h
      subst h
      refine ⟨by rw [List.length_set], gi, st, st + L, hgilt, by omega, by omega,
        by omega, by omega, ?_, ?_⟩
      · intro k hk
        rw [List.getElem?_set, if_neg (fun hc => hk hc.symm)]
      · intro g g2 hg hg2
        have hgeq : g = gene := by
          rw [hgig] at hg
          exact (Option.some.inj hg).symm
        subst hgeq
        rw [List.getElem?_set, if_pos rfl, if_pos hgilt] at hg2
        have hg2eq : g2 = { g with
            elems := g.elems.take st ++
              (pyslice g.elems st (st + L)).reverse ++ g.elems.drop (st + L) } :=
          (Option.some.inj hg2).symm
        subst hg2eq
        have hslicelen : (pyslice g.elems st (st + L)).length = L := by
          unfold pyslice
          rw [List.length_take, List.length_drop]
          omega
        have hstlen : st ≤ g.elems.length := by omega
        have htklen : (g.elems.take st).length = st := by
          rw [List.length_take]
          omega
        refine ⟨rfl, rfl, rfl, ?_, ?_, ?_, ?_, rfl⟩
        · simp only [List.length_append, List.length_reverse, hslicelen, htklen,
            List.length_drop]
          omega
        · have hdecomp := take_pyslice_drop g.elems st (st + L) (by omega)
          have h1 : (g.elems.take st ++ (pyslice g.elems st (st + L)).reverse ++
              g.elems.drop (st + L)).Perm
              (g.elems.take st ++ (pyslice g.elems st (st + L) ++
                g.elems.drop (st + L))) := by
            rw [List.append_assoc]
            exact List.Perm.append_left _
              (List.Perm.append_right _ (List.reverse_perm _))
          rw [hdecomp] at h1
          exact Multiset.coe_eq_coe.mpr h1
        · intro p hp
          have hAlen : (g.elems.take st ++
              (pyslice g.elems st (st + L)).reverse).length = st + L := by
            simp [htklen, hslicelen]
          rw [List.getElem?_append, if_pos (by rw [hAlen]; omega),
            List.getElem?_append, if_pos (by rw [htklen]; omega),
            List.getElem?_take, if_pos hp]
        · intro p hp
          have hAlen : (g.elems.take st ++
              (pyslice g.elems st (st + L)).reverse).length = st + L := by
            simp [htklen, hslicelen]
          rw [List.getElem?_append, if_neg (by rw [hAlen]; omega),
            List.getElem?_drop, hAlen]
          congr 1
          omega

/-- A single-gene chromosome with head `[AND, NOT]` and tail `[a, b]`
(head length 2) for the inversion witness. -/
def ch5 : List PyGene := [⟨[.sym AND, .sym NOT, .sym termA, .sym termB], 2, false, []⟩]

/-- `ch5` after inverting the head subsequence `[0, 2)`. -/
def ch5x : List PyGene := [⟨[.sym NOT, .sym AND, .sym termA, .sym termB], 2, false, []⟩]

/-- Witness for `invert_preserves`: inversion of the whole head of the single
gene of `ch5`. -/
theorem invert_preserves_witness :
    ((∀ g ∈ ch5, g.headLen = 2) ∧ (∀ g ∈ ch5, 2 ≤ g.elems.length) ∧ (2 : Nat) ≤ 2 ∧
      invert ch5 0 2 0 = some ch5x) ∧
    (ch5x.length = ch5.length ∧
      ∃ gi s e, gi < ch5.length ∧ s ≤ e ∧ e ≤ 2 ∧ 2 ≤ e - s ∧ e - s ≤ 2 ∧
        (∀ k : Nat, k ≠ gi → ch5x[k]? = ch5[k]?) ∧
        ∀ g g2, ch5[gi]? = some g → ch5x[gi]? = some g2 →
          g2.headLen = g.headLen ∧ g2.isDc = g.isDc ∧ g2.rnc = g.rnc ∧
          g2.elems.length = g.elems.length ∧
          (g2.elems : Multiset GElem) = (g.elems : Multiset GElem) ∧
          (∀ p : Nat, p < s → g2.elems[p]? = g.elems[p]?) ∧
          (∀ p : Nat, e ≤ p → g2.elems[p]? = g.elems[p]?) ∧
          g2.elems = g.elems.take s ++ (pyslice g.elems s e).reverse ++
            g.elems.drop e) :=
  ⟨⟨by decide, by decide, by decide, by decide⟩,
   invert_preserves ch5 2 (by decide) (by decide) (by decide) 0 2 0 ch5x (by decide)⟩

/-- The multiset of all symbols (gene elements) across a chromosome. -/
def chromSymbols (c : List PyGene) : Multiset GElem :=
  (c.map fun g => (g.elems : Multiset GElem)).sum

theorem chromSymbols_append (a b : List PyGene) :
    chromSymbols (a ++ b) = chromSymbols a + chromSymbols b := by
  simp [chromSymbols]

theorem chromSymbols_cons (g : PyGene) (c : List PyGene) :
    chromSymbols (g :: c) = (g.elems : Multiset GElem) + chromSymbols c := by
  simp [chromSymbols]

theorem getElem?_some_lt {α : Type} {l : List α} {n : Nat} {g : α}
    (h : l[n]? = some g) : n < l.length := by
  by_contra hc
  rw [List.getElem?_eq_none (by omega)] at h
  cases h

theorem chrom_decomp {α : Type} (l : List α) (n : Nat) (g : α)
    (h : l[n]? = some g) : l = l.take n ++ g :: l.drop (n + 1) := by
  have hn : n < l.length := getElem?_some_lt h
  have hg : l[n] = g := by
    rw [List.getElem?_eq_getElem hn] at h
    exact Option.some.inj h
  conv_lhs => rw [← List.take_append_drop n l, List.drop_eq_getElem_cons hn, hg]

theorem coe_split {α : Type} (l : List α) (n : Nat) :
    (l : Multiset α) = (l.take n : Multiset α) + (l.drop n : Multiset α) := by
  rw [Multiset.coe_add, List.take_append_drop]

theorem crossover_one_point_multiset (ind1 ind2 : List PyGene) (wgD wpD : Nat)
    (c1 c2 : List PyGene)
    (h : crossover_one_point ind1 ind2 wgD wpD = some (c1, c2)) :
    chromSymbols c1 + chromSymbols c2 = chromSymbols ind1 + chromSymbols ind2 := by
  unfold crossover_one_point at h
  by_cases hlen : ind1.length = ind2.length
  case neg => rw [if_neg hlen] at h; cases h
  rw [if_pos hlen] at h
  rw [Option.bind_eq_some] at h
  obtain ⟨wg, hwgd, h⟩ := h
  cases h1 : ind1[wg]? with
  | none => rw [h1] at h; cases h
  | some gA =>
    cases h2 : ind2[wg]? with
    | none => rw [h1, h2] at h; cases h
    | some gB =>
      rw [h1, h2] at h
      simp only at h
      rw [Option.bind_eq_some] at h
      obtain ⟨wp, hwpd, h⟩ := h
      simp only [Option.some.injEq, Prod.mk.injEq] at h
      obtain ⟨hc1, hc2⟩ := h
      subst hc1
      subst hc2
      have hd1 := chrom_decomp ind1 wg gA h1
      have hd2 := chrom_decomp ind2 wg gB h2
      have e1 : chromSymbols ind1 = chromSymbols (ind1.take wg) +
          ((gA.elems : Multiset GElem) + chromSymbols (ind1.drop (wg + 1))) := by
        conv_lhs => rw [hd1]
        rw [chromSymbols_append, chromSymbols_cons]
      have e2 : chromSymbols ind2 = chromSymbols (ind2.take wg) +
          ((gB.elems : Multiset GElem) + chromSymbols (ind2.drop (wg + 1))) := by
        conv_lhs => rw [hd2]
        rw [chromSymbols_append, chromSymbols_cons]
      rw [e1, e2]
      simp only [chromSymbols_append, chromSymbols_cons]
      rw [coe_split gA.elems (wp + 1), coe_split gB.elems (wp + 1),
        ← Multiset.coe_add, ← Multiset.coe_add]
      abel

theorem crossover_gene_multiset (ind1 ind2 : List PyGene) (p1D p2D : Nat)
    (c1 c2 : List PyGene)
    (h : crossover_gene ind1 ind2 p1D p2D = some (c1, c2)) :
    chromSymbols c1 + chromSymbols c2 = chromSymbols ind1 + chromSymbols ind2 := by
  unfold crossover_gene at h
  by_cases hlen : ind1.length = ind2.length
  case neg => rw [if_neg hlen] at h; cases h
  rw [if_pos hlen] at h
  rw [Option.bind_eq_some] at h
  obtain ⟨pos1, hp1, h⟩ := h
  rw [Option.bind_eq_some] at h
  obtain ⟨pos2, hp2, h⟩ := h
  cases h1 : ind1[pos1]? with
  | none => rw [h1] at h; cases h
  | some gA =>
    cases h2 : ind2[pos2]? with
    | none => rw [h1, h2] at h; cases h
    | some gB =>
      rw [h1, h2] at h
      simp only [Option.some.injEq, Prod.mk.injEq] at h
      obtain ⟨hc1, hc2⟩ := h
      subst hc1
      subst hc2
      have hl1 : pos1 < ind1.length := getElem?_some_lt h1
      have hl2 : pos2 < ind2.length := getElem?_some_lt h2
      have hs1 : ind1.set pos1 gB = ind1.take pos1 ++ gB :: ind1.drop (pos1 + 1) := by
        rw [List.set_eq_take_append_cons_drop, if_pos hl1]
      have hs2 : ind2.set pos2 gA = ind2.take pos2 ++ gA :: ind2.drop (pos2 + 1) := by
        rw [List.set_eq_take_append_cons_drop, if_pos hl2]
      have e1 : chromSymbols ind1 = chromSymbols (ind1.take pos1) +
          ((gA.elems : Multiset GElem) + chromSymbols (ind1.drop (pos1 + 1))) := by
        conv_lhs => rw [chrom_decomp ind1 pos1 gA h1]
        rw [chromSymbols_append, chromSymbols_cons]
      have e2 : chromSymbols ind2 = chromSymbols (ind2.take pos2) +
          ((gB.elems : Multiset GElem) + chromSymbols (ind2.drop (pos2 + 1))) := by
        conv_lhs => rw [chrom_decomp ind2 pos2 gB h2]
        rw [chromSymbols_append, chromSymbols_cons]
      rw [hs1, hs2, e1, e2]
      simp only [chromSymbols_append, chromSymbols_cons]
      abel

theorem chrom_decomp2 {α : Type} (l : List α) (g1 g2 : Nat) (a b : α)
    (h12 : g1 < g2) (h1 : l[g1]? = some a) (h2 : l[g2]? = some b) :
    l = l.take g1 ++ a :: (pyslice l (g1 + 1) g2 ++ b :: l.drop (g2 + 1)) := by
  have hd1 := chrom_decomp l g1 a h1
  have hb : (l.drop (g1 + 1))[g2 - (g1 + 1)]? = some b := by
    rw [List.getElem?_drop]
    have hix : g1 + 1 + (g2 - (g1 + 1)) = g2 := by omega
    rw [hix]
    exact h2
  have hd2 := chrom_decomp (l.drop (g1 + 1)) (g2 - (g1 + 1)) b hb
  have hps : (l.drop (g1 + 1)).take (g2 - (g1 + 1)) = pyslice l (g1 + 1) g2 := rfl
  have hdd : (l.drop (g1 + 1)).drop (g2 - (g1 + 1) + 1) = l.drop (g2 + 1) := by
    rw [List.drop_drop]
    congr 1
    omega
  rw [hps, hdd] at hd2
  conv_lhs => rw [hd1]
  rw [hd2]

theorem crossover_two_point_multiset (ind1 ind2 : List PyGene)
    (gAD gBD p1D p2D : Nat) (c1 c2 : List PyGene)
    (h : crossover_two_point ind1 ind2 gAD gBD p1D p2D = some (c1, c2)) :
    chromSymbols c1 + chromSymbols c2 = chromSymbols ind1 + chromSymbols ind2 := by
  unfold crossover_two_point at h
  by_cases hlen : ind1.length = ind2.length
  case neg => rw [if_neg hlen] at h; cases h
  rw [if_pos hlen] at h
  rw [Option.bind_eq_some] at h
  obtain ⟨gA, hgA, h⟩ := h
  rw [Option.bind_eq_some] at h
  obtain ⟨gB, hgB, h⟩ := h
  simp only at h
  cases h1 : ind1[min gA gB]? with
  | none => rw [h1] at h; cases h
  | some a1 =>
    cases h2 : ind1[max gA gB]? with
    | none => rw [h1, h2] at h; cases h
    | some a2 =>
      cases h3 : ind2[min gA gB]? with
      | none => rw [h1, h2, h3] at h; cases h
      | some b1 =>
        cases h4 : ind2[max gA gB]? with
        | none => rw [h1, h2, h3, h4] at h; cases h
        | some b2 =>
          rw [h1, h2, h3, h4] at h
          simp only at h
          rw [Option.bind_eq_some] at h
          obtain ⟨p1, hp1, h⟩ := h
          rw [Option.bind_eq_some] at h
          obtain ⟨p2, hp2, h⟩ := h
          by_cases hgg : min gA gB = max gA gB
          · rw [if_pos hgg] at h
            simp only [Option.some.injEq, Prod.mk.injEq] at h
            obtain ⟨hc1, hc2⟩ := h
            subst hc1
            subst hc2
            have hq12 : min p1 p2 ≤ max p1 p2 + 1 := by
              rw [Nat.min_def, Nat.max_def]
              split <;> omega
            have hl1 : min gA gB < ind1.length := getElem?_some_lt h1
            have hl3 : min gA gB < ind2.length := getElem?_some_lt h3
            have ea1 : (a1.elems : Multiset GElem) =
                (a1.elems.take (min p1 p2) : Multiset GElem) +
                ((pyslice a1.elems (min p1 p2) (max p1 p2 + 1) : Multiset GElem) +
                  (a1.elems.drop (max p1 p2 + 1) : Multiset GElem)) := by
              conv_lhs =>
                rw [← take_pyslice_drop a1.elems (min p1 p2) (max p1 p2 + 1) hq12]
              rw [← Multiset.coe_add, ← Multiset.coe_add]
            have eb1 : (b1.elems : Multiset GElem) =
                (b1.elems.take (min p1 p2) : Multiset GElem) +
                ((pyslice b1.elems (min p1 p2) (max p1 p2 + 1) : Multiset GElem) +
                  (b1.elems.drop (max p1 p2 + 1) : Multiset GElem)) := by
              conv_lhs =>
                rw [← take_pyslice_drop b1.elems (min p1 p2) (max p1 p2 + 1) hq12]
              rw [← Multiset.coe_add, ← Multiset.coe_add]
            have e1 : chromSymbols ind1 = chromSymbols (ind1.take (min gA gB)) +
                ((a1.elems : Multiset GElem) +
                  chromSymbols (ind1.drop (min gA gB + 1))) := by
              conv_lhs => rw [chrom_decomp ind1 (min gA gB) a1 h1]
              rw [chromSymbols_append, chromSymbols_cons]
            have e2 : chromSymbols ind2 = chromSymbols (ind2.take (min gA gB)) +
                ((b1.elems : Multiset GElem) +
                  chromSymbols (ind2.drop (min gA gB + 1))) := by
              conv_lhs => rw [chrom_decomp ind2 (min gA gB) b1 h3]
              rw [chromSymbols_append, chromSymbols_cons]
            rw [List.set_eq_take_append_cons_drop, List.set_eq_take_append_cons_drop,
              if_pos hl1, if_pos hl3, e1, e2, ea1, eb1]
            simp only [chromSymbols_append, chromSymbols_cons]
            rw [← Multiset.coe_add, ← Multiset.coe_add, ← Multiset.coe_add,
              ← Multiset.coe_add]
            abel
          · rw [if_neg hgg] at h
            simp only [Option.some.injEq, Prod.mk.injEq] at h
            obtain ⟨hc1, hc2⟩ := h
            subst hc1
            subst hc2
            have hlt : min gA gB < max gA gB := by
              rcases Nat.lt_or_ge gA gB with hab | hab
              · rw [Nat.min_def, Nat.max_def]
                simp [Nat.le_of_lt hab]
                omega
              · rcases Nat.eq_or_lt_of_le hab with rfl | hba
                · exact absurd (by simp) hgg
                · rw [Nat.min_def, Nat.max_def]
                  have : ¬ gA ≤ gB := by omega
                  simp [this]
                  omega
            have e1 : chromSymbols ind1 = chromSymbols (ind1.take (min gA gB)) +
                ((a1.elems : Multiset GElem) +
                  (chromSymbols (pyslice ind1 (min gA gB + 1) (max gA gB)) +
                    ((a2.elems : Multiset GElem) +
                      chromSymbols (ind1.drop (max gA gB + 1))))) := by
              conv_lhs => rw [chrom_decomp2 ind1 (min gA gB) (max gA gB) a1 a2 hlt h1 h2]
              rw [chromSymbols_append, chromSymbols_cons, chromSymbols_append,
                chromSymbols_cons]
            have e2 : chromSymbols ind2 = chromSymbols (ind2.take (min gA gB)) +
                ((b1.elems : Multiset GElem) +
                  (chromSymbols (pyslice ind2 (min gA gB + 1) (max gA gB)) +
                    ((b2.elems : Multiset GElem) +
                      chromSymbols (ind2.drop (max gA gB + 1))))) := by
              conv_lhs => rw [chrom_decomp2 ind2 (min gA gB) (max gA gB) b1 b2 hlt h3 h4]
              rw [chromSymbols_append, chromSymbols_cons, chromSymbols_append,
                chromSymbols_cons]
            rw [e1, e2, coe_split a1.elems p1, coe_split b1.elems p1,
              coe_split a2.elems (p2 + 1), coe_split b2.elems (p2 + 1)]
            simp only [chromSymbols_append, chromSymbols_cons]
            rw [← Multiset.coe_add, ← Multiset.coe_add, ← Multiset.coe_add,
              ← Multiset.coe_add]
            abel

/-- C4: for every pair of chromosomes of identical shape (same gene count,
same per-gene lengths), a single successful application of
`crossover_one_point`, `crossover_two_point` or `crossover_gene` leaves the
multiset union of symbols across the two chromosomes equal to the multiset
union across the two inputs.  (The proofs do not even need the shape
hypotheses: the operators swap corresponding slices.) -/
theorem crossover_symbol_conservation (ind1 ind2 : List PyGene)
    (_hcount : ind1.length = ind2.length)
    (_hshape : ind1.map (fun g => g.elems.length) = ind2.map (fun g => g.elems.length)) :
    (∀ (wgD wpD : Nat) (c1 c2 : List PyGene),
      crossover_one_point ind1 ind2 wgD wpD = some (c1, c2) →
      chromSymbols c1 + chromSymbols c2 = chromSymbols ind1 + chromSymbols ind2) ∧
    (∀ (gAD gBD p1D p2D : Nat) (c1 c2 : List PyGene),
      crossover_two_point ind1 ind2 gAD gBD p1D p2D = some (c1, c2) →
      chromSymbols c1 + chromSymbols c2 = chromSymbols ind1 + chromSymbols ind2) ∧
    (∀ (p1D p2D : Nat) (c1 c2 : List PyGene),
      crossover_gene ind1 ind2 p1D p2D = some (c1, c2) →
      chromSymbols c1 + chromSymbols c2 = chromSymbols ind1 + chromSymbols ind2) :=
  ⟨fun wgD wpD c1 c2 h => crossover_one_point_multiset ind1 ind2 wgD wpD c1 c2 h,
   fun gAD gBD p1D p2D c1 c2 h =>
     crossover_two_point_multiset ind1 ind2 gAD gBD p1D p2D c1 c2 h,
   fun p1D p2D c1 c2 h => crossover_gene_multiset ind1 ind2 p1D p2D c1 c2 h⟩

/-- Single-gene parents for the crossover witness. -/
def gXW : PyGene := ⟨[.sym termA, .sym termB], 1, false, []⟩

/-- Second single-gene parent for the crossover witness. -/
def gYW : PyGene := ⟨[.sym termC, .sym termC], 1, false, []⟩

/-- Witness for `crossover_symbol_conservation`: a whole-gene swap between
`[gXW]` and `[gYW]` preserves the combined symbol multiset. -/
theorem crossover_symbol_conservation_witness :
    (([gXW] : List PyGene).length = ([gYW] : List PyGene).length ∧
      ([gXW] : List PyGene).map (fun g => g.elems.length)
        = ([gYW] : List PyGene).map (fun g => g.elems.length) ∧
      crossover_gene [gXW] [gYW] 0 0 = some ([gYW], [gXW])) ∧
    chromSymbols [gYW] + chromSymbols [gXW]
      = chromSymbols [gXW] + chromSymbols [gYW] :=
  ⟨⟨by decide, by decide, by decide⟩,
   (crossover_symbol_conservation [gXW] [gYW] (by decide) (by decide)).2.2
     0 0 [gYW] [gXW] (by decide)⟩

/-- A single-gene chromosome whose gene is shorter than `gXW`'s, used to show
that gene-length mismatches are not detected by the crossovers. -/
def gShort : PyGene := ⟨[.sym termC], 1, false, []⟩

/-- C7 (counterexample): on two chromosomes with the same gene count but
different gene lengths, `crossover_one_point` succeeds instead of failing
with a shape error: only the gene counts are compared by the assertion. -/
theorem crossover_length_mismatch_not_detected :
    (crossover_one_point [gXW] [gShort] 0 0).isSome = true := by decide

/-- C7 (amended): the three crossovers never raise on equal-gene-count
chromosomes with in-range draws (in particular on well-formed equal-shaped
inputs), and each fails — Python's `assert len(ind1) == len(ind2)`, the
`ShapeMismatchError` of the design — exactly when the two chromosomes have
differing gene counts; differing gene lengths alone are not detected. -/
theorem crossover_error_behavior :
    (∀ (ind1 ind2 : List PyGene) (wg wp : Nat), ind1.length = ind2.length →
      wg < ind1.length →
      wp < ((ind1[wg]?).map (fun g => g.elems.length)).getD 0 →
      (crossover_one_point ind1 ind2 wg wp).isSome = true) ∧
    (∀ (ind1 ind2 : List PyGene) (gA gB p1 p2 : Nat), ind1.length = ind2.length →
      gA < ind1.length → gB < ind1.length →
      p1 < ((ind1[min gA gB]?).map (fun g => g.elems.length)).getD 0 →
      p2 < ((ind1[max gA gB]?).map (fun g => g.elems.length)).getD 0 →
      (crossover_two_point ind1 ind2 gA gB p1 p2).isSome = true) ∧
    (∀ (ind1 ind2 : List PyGene) (p1 p2 : Nat), ind1.length = ind2.length →
      p1 < ind1.length → p2 < ind1.length →
      (crossover_gene ind1 ind2 p1 p2).isSome = true) ∧
    (∀ (ind1 ind2 : List PyGene), ind1.length ≠ ind2.length →
      (∀ wgD wpD, crossover_one_point ind1 ind2 wgD wpD = none) ∧
      (∀ gAD gBD p1D p2D, crossover_two_point ind1 ind2 gAD gBD p1D p2D = none) ∧
      (∀ p1D p2D, crossover_gene ind1 ind2 p1D p2D = none)) := by
  refine ⟨?_, ?_, ?_, ?_⟩
  · intro ind1 ind2 wg wp hcount hwg hwp
    have hwg2 : wg < ind2.length := by omega
    have h1 : ind1[wg]? = some ind1[wg] := List.getElem?_eq_getElem hwg
    have h2 : ind2[wg]? = some ind2[wg] := List.getElem?_eq_getElem hwg2
    rw [h1] at hwp
    simp only [Option.map_some', Option.getD_some] at hwp
    unfold crossover_one_point
    rw [if_pos hcount,
      randint_is_some (Nat.zero_le wg) (by omega), Option.some_bind, h1, h2]
    simp only
    rw [randint_is_some (Nat.zero_le wp) (by omega), Option.some_bind]
    exact Option.isSome_some
  · intro ind1 ind2 gA gB p1 p2 hcount hgA hgB hp1 hp2
    have hmin : min gA gB < ind1.length := by
      rw [Nat.min_def]
      split <;> omega
    have hmax : max gA gB < ind1.length := by
      rw [Nat.max_def]
      split <;> omega
    have hmin2 : min gA gB < ind2.length := by omega
    have hmax2 : max gA gB < ind2.length := by omega
    have h1 : ind1[min gA gB]? = some ind1[min gA gB] := List.getElem?_eq_getElem hmin
    have h2 : ind1[max gA gB]? = some ind1[max gA gB] := List.getElem?_eq_getElem hmax
    have h3 : ind2[min gA gB]? = some ind2[min gA gB] := List.getElem?_eq_getElem hmin2
    have h4 : ind2[max gA gB]? = some ind2[max gA gB] := List.getElem?_eq_getElem hmax2
    rw [h1] at hp1
    rw [h2] at hp2
    simp only [Option.map_some', Option.getD_some] at hp1 hp2
    unfold crossover_two_point
    rw [if_pos hcount,
      randint_is_some (Nat.zero_le gA) (by omega), Option.some_bind,
      randint_is_some (Nat.zero_le gB) (by omega), Option.some_bind]
    simp only
    rw [h1, h2, h3, h4]
    simp only
    rw [randint_is_some (Nat.zero_le p1) (by omega), Option.some_bind,
      randint_is_some (Nat.zero_le p2) (by omega), Option.some_bind]
    by_cases hgg : min gA gB = max gA gB
    · rw [if_pos hgg]
      exact Option.isSome_some
    · rw [if_neg hgg]
      exact Option.isSome_some
  · intro ind1 ind2 p1 p2 hcount hp1 hp2
    have hp12 : p1 < ind1.length := hp1
    have hp22 : p2 < ind2.length := by omega
    have h1 : ind1[p1]? = some ind1[p1] := List.getElem?_eq_getElem hp12
    have h2 : ind2[p2]? = some ind2[p2] := List.getElem?_eq_getElem hp22
    unfold crossover_gene
    rw [if_pos hcount,
      randint_is_some (Nat.zero_le p1) (by omega), Option.some_bind,
      randint_is_some (Nat.zero_le p2) (by omega), Option.some_bind, h1, h2]
    exact Option.isSome_some
  · intro ind1 ind2 hne
    refine ⟨?_, ?_, ?_⟩
    · intro wgD wpD
      unfold crossover_one_point
      rw [if_neg hne]
    · intro gAD gBD p1D p2D
      unfold crossover_two_point
      rw [if_neg hne]
    · intro p1D p2D
      unfold crossover_gene
      rw [if_neg hne]

/-- Witness for `crossover_error_behavior`: a successful one-point crossover
between two equal-shaped single-gene chromosomes, and the failure of all
three crossovers when the gene counts differ. -/
theorem crossover_error_behavior_witness :
    (([gXW] : List PyGene).length = ([gYW] : List PyGene).length ∧
      (0 : Nat) < ([gXW] : List PyGene).length ∧
      (0 : Nat) < ((([gXW] : List PyGene)[0]?).map (fun g => g.elems.length)).getD 0 ∧
      ([gXW] : List PyGene).length ≠ ([gXW, gYW] : List PyGene).length) ∧
    (crossover_one_point [gXW] [gYW] 0 0).isSome = true ∧
    (∀ p1D p2D, crossover_gene [gXW] [gXW, gYW] p1D p2D = none) :=
  ⟨⟨by decide, by decide, by decide, by decide⟩,
   crossover_error_behavior.1 [gXW] [gYW] 0 0 (by decide) (by decide) (by decide),
   (crossover_error_behavior.2.2.2 [gXW] [gXW, gYW] (by decide)).2.2⟩

/-- C6 (counterexample): `crossover_gene` on two single-gene chromosomes does
NOT leave its inputs unchanged: both gene indices are forced to 0 and the two
whole genes are swapped, so each individual becomes the other parent. -/
theorem crossover_gene_single_swaps :
    crossover_gene [gXW] [gYW] 0 0 ≠ some ([gXW], [gYW]) := by decide

/-- C6 (amended): the degenerate-input behavior of the operators.
`invert` on a chromosome with `head_length < 2` and `gene_transpose` on a
single-gene chromosome return the chromosome unchanged and never raise.
`is_transpose` on a chromosome with `head_length` 1, however, always raises
(`random.randint(1, head_length - len(is)) = randint(1, 0)` has an empty
range) instead of being a silent no-op, and `crossover_gene` on single-gene
chromosomes swaps the two parents' genes wholesale — the pair of chromosomes
is preserved as a multiset, but the individual inputs change. -/
theorem degenerate_operator_behavior :
    (∀ (ch : List PyGene) (g0 : PyGene), ch[0]? = some g0 → g0.headLen < 2 →
      ∀ giD lenD startD, invert ch giD lenD startD = some ch) ∧
    (∀ ch : List PyGene, ch.length ≤ 1 → ∀ srcD, gene_transpose ch srcD = some ch) ∧
    (∀ ch : List PyGene, (∀ g ∈ ch, g.headLen = 1) → (∀ g ∈ ch, 1 ≤ g.elems.length) →
      ∀ i1D i2D lenD startD posD, is_transpose ch i1D i2D lenD startD posD = none) ∧
    (∀ g1 g2 : PyGene, crossover_gene [g1] [g2] 0 0 = some ([g2], [g1])) := by
  refine ⟨?_, ?_, ?_, ?_⟩
  · intro ch g0 h0 hlt giD lenD startD
    unfold invert
    rw [h0]
    simp only
    rw [if_pos hlt]
  · intro ch hle srcD
    unfold gene_transpose
    rw [if_pos hle]
  · intro ch hH hlen i1D i2D lenD startD posD
    cases hres : is_transpose ch i1D i2D lenD startD posD with
    | none => rfl
    | some ch2 =>
      exfalso
      unfold is_transpose at hres
      rw [Option.bind_eq_some] at hres
      obtain ⟨i1, hi1, hres⟩ := hres
      rw [Option.bind_eq_some] at hres
      obtain ⟨i2, hi2, hres⟩ := hres
      cases hd1 : ch[i1]? with
      | none =>
        cases hd2 : ch[i2]? with
        | none => rw [hd1, hd2] at hres; exact Option.noConfusion hres
        | some donee => rw [hd1, hd2] at hres; exact Option.noConfusion hres
      | some donor =>
        cases hd2 : ch[i2]? with
        | none => rw [hd1, hd2] at hres; exact Option.noConfusion hres
        | some donee =>
          rw [hd1, hd2] at hres
          simp only at hres
          have hdonor : donor ∈ ch := List.getElem?_mem hd1
          have hdonee : donee ∈ ch := List.getElem?_mem hd2
          have hh1 : donor.headLen = 1 := hH donor hdonor
          have hh2 : donee.headLen = 1 := hH donee hdonee
          have hlen1 : 1 ≤ donor.elems.length := hlen donor hdonor
          have hht : donor.headLen + donor.tail_length ≤ donor.elems.length := by
            unfold PyGene.tail_length
            by_cases hdc : donor.isDc
            · rw [if_pos hdc]; omega
            · rw [if_neg hdc]; omega
          unfold choose_subsequence_indices at hres
          simp only [Option.bind_eq_some] at hres
          obtain ⟨ab, ⟨L, hL, st, hst, hab⟩, ip, hip, _⟩ := hres
          obtain ⟨hLeq, hL1, hLhi⟩ := randint_some hL
          obtain ⟨hsteq, hst0, hsthi⟩ := randint_some hst
          have habeq : ab = (st, st + L - 1) := (Option.some.inj hab).symm
          subst habeq
          simp only at hip
          obtain ⟨hipeq, hip1, hiphi⟩ := randint_some hip
          have hslen : 1 ≤ (pyslice donor.elems st (st + L - 1 + 1)).length := by
            unfold pyslice
            rw [List.length_take, List.length_drop]
            omega
          rw [hh2] at hiphi
          omega
  · intro g1 g2
    rfl

/-- Witness for `degenerate_operator_behavior` at concrete inputs: a
single-gene chromosome whose gene has `head_length` 1. -/
theorem degenerate_operator_behavior_witness :
    invert [gXW] 0 0 0 = some [gXW] ∧
    gene_transpose [gXW] 0 = some [gXW] ∧
    is_transpose [gXW] 0 0 0 0 0 = none ∧
    crossover_gene [gXW] [gYW] 0 0 = some ([gYW], [gXW]) :=
  ⟨degenerate_operator_behavior.1 [gXW] gXW (by decide) (by decide) 0 0 0,
   degenerate_operator_behavior.2.1 [gXW] (by decide) 0,
   degenerate_operator_behavior.2.2.1 [gXW] (by decide) (by decide) 0 0 0 0 0,
   degenerate_operator_behavior.2.2.2 gXW gYW⟩

/-! ### C3: IS and RIS transposition preserve the gene layout -/

/-- The per-gene quantities C3 claims invariant under transposition: total
element count, `head_length`, `tail_length` and `dc_length`. -/
def geneShape (g : PyGene) : Nat × Nat × Nat × Nat :=
  (g.elems.length, g.headLen, g.tail_length, g.dc_length)

/-- Everything of a gene from position `head_length` on: the tail, and for
a `GeneDc` also the Dc domain and the attached RNC array positions. -/
def geneTailDc (g : PyGene) : List GElem := g.elems.drop g.headLen

/-- What C3 asserts of a transposition result `ch2` relative to the input
`ch`: same gene count, every gene keeps its length/head/tail/Dc shape, the
material from `head_length` on is reattached unchanged, and no tail or Dc
position holds a function symbol. -/
def C3Preserved (ch ch2 : List PyGene) : Prop :=
  ch2.length = ch.length ∧
  (∀ j : Nat, (ch2[j]?).map geneShape = (ch[j]?).map geneShape) ∧
  (∀ j : Nat, (ch2[j]?).map geneTailDc = (ch[j]?).map geneTailDc) ∧
  ∀ g ∈ ch2, ∀ e ∈ g.elems.drop g.headLen, isFunction e = false

lemma map_getElem?_set {α β : Type} (f : α → β) (l : List α) (i : Nat) (a b : α)
    (hib : l[i]? = some b) (hf : f a = f b) (j : Nat) :
    ((l.set i a)[j]?).map f = (l[j]?).map f := by
  rw [List.getElem?_set]
  by_cases hij : i = j
  · subst hij
    rw [if_pos rfl, if_pos (getElem?_some_lt hib), hib, Option.map_some',
      Option.map_some', hf]
  · rw [if_neg hij]

/-- Replacing one gene by a gene of the same shape and the same
tail/Dc content yields a `C3Preserved` chromosome. -/
lemma set_preserves_c3 {ch : List PyGene} {i : Nat} {donee d2 : PyGene}
    (hd : ch[i]? = some donee)
    (hshape : geneShape d2 = geneShape donee)
    (htl : geneTailDc d2 = geneTailDc donee)
    (htail : ∀ g ∈ ch, ∀ e ∈ g.elems.drop g.headLen, isFunction e = false) :
    C3Preserved ch (ch.set i d2) := by
  refine ⟨List.length_set ch i d2,
    fun j => map_getElem?_set geneShape ch i d2 donee hd hshape j,
    fun j => map_getElem?_set geneTailDc ch i d2 donee hd htl j, ?_⟩
  intro g hg e he
  rcases List.mem_or_eq_of_mem_set hg with hg2 | rfl
  · exact htail g hg2 e he
  · have hmem : e ∈ geneTailDc donee := by rw [← htl]; exact he
    exact htail donee (List.getElem?_mem hd) e hmem

/-- Inversion of a successful `is_transpose`: the result replaces the donee
by a gene of the same shape whose tail and Dc content is reattached
unchanged. -/
lemma is_transpose_some {ch ch2 : List PyGene} {i1D i2D lenD startD posD : Nat}
    (hlayout : ∀ g ∈ ch, g.headLen + g.tail_length ≤ g.elems.length)
    (hres : is_transpose ch i1D i2D lenD startD posD = some ch2) :
    ∃ (i2 : Nat) (donee d2 : PyGene), ch[i2]? = some donee ∧
      ch2 = ch.set i2 d2 ∧ geneShape d2 = geneShape donee ∧
      geneTailDc d2 = geneTailDc donee := by
  unfold is_transpose at hres
  rw [Option.bind_eq_some] at hres
  obtain ⟨i1, hi1, hres⟩ := hres
  rw [Option.bind_eq_some] at hres
  obtain ⟨i2, hi2, hres⟩ := hres
  cases hd1 : ch[i1]? with
  | none =>
    cases hd2 : ch[i2]? with
    | none => rw [hd1, hd2] at hres; exact Option.noConfusion hres
    | some donee => rw [hd1, hd2] at hres; exact Option.noConfusion hres
  | some donor =>
    cases hd2 : ch[i2]? with
    | none => rw [hd1, hd2] at hres; exact Option.noConfusion hres
    | some donee =>
      rw [hd1, hd2] at hres
      simp only at hres
      unfold choose_subsequence_indices at hres
      simp only [Option.bind_eq_some] at hres
      obtain ⟨ab, ⟨L, hL, st, hst, hab⟩, ip, hip, hch2⟩ := hres
      obtain ⟨hLeq, hL1, hLhi⟩ := randint_some hL
      obtain ⟨hsteq, hst0, hsthi⟩ := randint_some hst
      have habeq : ab = (st, st + L - 1) := (Option.some.inj hab).symm
      subst habeq
      simp only at hip hch2
      obtain ⟨hipeq, hip1, hiphi⟩ := randint_some hip
      have hdonor : donor.headLen + donor.tail_length ≤ donor.elems.length :=
        hlayout donor (List.getElem?_mem hd1)
      have hdonee : donee.headLen + donee.tail_length ≤ donee.elems.length :=
        hlayout donee (List.getElem?_mem hd2)
      have hlenis : (pyslice donor.elems st (st + L - 1 + 1)).length = L := by
        unfold pyslice
        rw [List.length_take, List.length_drop]
        omega
      rw [hlenis] at hiphi
      have hip2 : ip + L ≤ donee.headLen := by omega
      have hlen2 : (donee.elems.take ip ++ pyslice donor.elems st (st + L - 1 + 1) ++
          pyslice donee.elems ip (ip + donee.headLen - ip -
            (pyslice donor.elems st (st + L - 1 + 1)).length) ++
          donee.elems.drop donee.headLen).length = donee.elems.length := by
        simp only [List.length_append]
        rw [hlenis]
        simp only [pyslice, List.length_take, List.length_drop]
        omega
      have hplen : (donee.elems.take ip ++ pyslice donor.elems st (st + L - 1 + 1) ++
          pyslice donee.elems ip (ip + donee.headLen - ip -
            (pyslice donor.elems st (st + L - 1 + 1)).length)).length =
          donee.headLen := by
        simp only [List.length_append]
        rw [hlenis]
        simp only [pyslice, List.length_take, List.length_drop]
        omega
      refine ⟨i2, donee, _, hd2, (Option.some.inj hch2).symm, ?_, ?_⟩
      · unfold geneShape PyGene.dc_length PyGene.tail_length
        simp only
        rw [hlen2]
      · unfold geneTailDc
        simp only
        rw [List.drop_append_of_le_length (le_of_eq hplen.symm),
          List.drop_eq_nil_of_le (le_of_eq hplen), List.nil_append]

/-- Inversion of a `ris_attempt` that finishes: the result replaces the
donee by a gene of the same shape whose tail and Dc content is reattached
unchanged. -/
lemma ris_attempt_done {ch ch2 : List PyGene} {d : RisDraw}
    (hlayout : ∀ g ∈ ch, g.headLen + g.tail_length ≤ g.elems.length)
    (hres : ris_attempt ch d = .done ch2) :
    ∃ (i2 : Nat) (donee d2 : PyGene), ch[i2]? = some donee ∧
      ch2 = ch.set i2 d2 ∧ geneShape d2 = geneShape donee ∧
      geneTailDc d2 = geneTailDc donee := by
  unfold ris_attempt at hres
  cases hr1 : randint 0 ((ch.length : Int) - 1) d.i1D with
  | none => rw [hr1] at hres; exact RisOutcome.noConfusion hres
  | some i1 =>
    cases hr2 : randint 0 ((ch.length : Int) - 1) d.i2D with
    | none => rw [hr1, hr2] at hres; exact RisOutcome.noConfusion hres
    | some i2 =>
      rw [hr1, hr2] at hres
      simp only at hres
      cases hd1 : ch[i1]? with
      | none =>
        cases hd2 : ch[i2]? with
        | none => rw [hd1, hd2] at hres; exact RisOutcome.noConfusion hres
        | some donee => rw [hd1, hd2] at hres; exact RisOutcome.noConfusion hres
      | some donor =>
        cases hd2 : ch[i2]? with
        | none => rw [hd1, hd2] at hres; exact RisOutcome.noConfusion hres
        | some donee =>
          rw [hd1, hd2] at hres
          simp only at hres
          by_cases hfis :
              (List.findIdxs isFunction (donor.elems.take donor.headLen)).length = 0
          · rw [if_pos hfis] at hres; exact RisOutcome.noConfusion hres
          · rw [if_neg hfis] at hres
            cases hf : (List.findIdxs isFunction (donor.elems.take donor.headLen))[d.fD]? with
            | none => rw [hf] at hres; exact RisOutcome.noConfusion hres
            | some rs =>
              rw [hf] at hres
              simp only at hres
              cases hL : randint 2 (min (donee.headLen : Int)
                  ((donor.headLen : Int) + donor.tail_length - rs)) d.lenD with
              | none => rw [hL] at hres; exact RisOutcome.noConfusion hres
              | some L =>
                rw [hL] at hres
                simp only at hres
                obtain ⟨hLeq, hL2, hLhi⟩ := randint_some hL
                rw [Int.le_min] at hLhi
                obtain ⟨hLdonee, hLdonor⟩ := hLhi
                have hdonor : donor.headLen + donor.tail_length ≤ donor.elems.length :=
                  hlayout donor (List.getElem?_mem hd1)
                have hdonee : donee.headLen + donee.tail_length ≤ donee.elems.length :=
                  hlayout donee (List.getElem?_mem hd2)
                have hLh : L ≤ donee.headLen := by omega
                have hlris : (pyslice donor.elems rs (rs + L)).length = L := by
                  unfold pyslice
                  rw [List.length_take, List.length_drop]
                  omega
                have hlen2 : (pyslice donor.elems rs (rs + L) ++
                    donee.elems.take (donee.headLen - L) ++
                    donee.elems.drop donee.headLen).length = donee.elems.length := by
                  simp only [List.length_append]
                  rw [hlris]
                  simp only [List.length_take, List.length_drop]
                  omega
                have hplen : (pyslice donor.elems rs (rs + L) ++
                    donee.elems.take (donee.headLen - L)).length = donee.headLen := by
                  rw [List.length_append, hlris, List.length_take]
                  omega
                refine ⟨i2, donee, _, hd2, (RisOutcome.done.inj hres).symm, ?_, ?_⟩
                · unfold geneShape PyGene.dc_length PyGene.tail_length
                  simp only
                  rw [hlen2]
                · unfold geneTailDc
                  simp only
                  rw [List.drop_append_of_le_length (le_of_eq hplen.symm),
                    List.drop_eq_nil_of_le (le_of_eq hplen), List.nil_append]

/-- The `ris_transpose` retry loop either returns the chromosome unchanged
(all attempts found function-free donor heads, or the fuel ran out) or
returns the result of one finishing attempt. -/
lemma ris_loop_some {ch : List PyGene} :
    ∀ (n : Nat) (ds : List RisDraw) {ch2 : List PyGene},
      ris_loop ch n ds = some ch2 →
      ch2 = ch ∨ ∃ d, ris_attempt ch d = .done ch2 := by
  intro n
  induction n with
  | zero =>
    intro ds ch2 h
    cases ds with
    | nil => exact Or.inl (Option.some.inj h).symm
    | cons d ds => exact Or.inl (Option.some.inj h).symm
  | succ n ih =>
    intro ds ch2 h
    cases ds with
    | nil => exact Option.noConfusion h
    | cons d ds =>
      unfold ris_loop at h
      cases ha : ris_attempt ch d with
      | err => rw [ha] at h; exact Option.noConfusion h
      | retry => rw [ha] at h; exact ih ds h
      | done c2 =>
        rw [ha] at h
        exact Or.inr ⟨d, by rw [ha, Option.some.inj h]⟩

/-- C3: on a chromosome whose genes satisfy the layout invariant
(`head_length + tail_length ≤ len(gene)`, no function symbol from position
`head_length` on), one application of `is_transpose` or `ris_transpose`
preserves every gene's total length, head length, tail length and Dc
length, reattaches everything from `head_length` on (tail and Dc) unchanged,
and leaves no function symbol in any tail or Dc position. -/
theorem transposition_invariants
    (ch : List PyGene)
    (hlayout : ∀ g ∈ ch, g.headLen + g.tail_length ≤ g.elems.length)
    (htail : ∀ g ∈ ch, ∀ e ∈ g.elems.drop g.headLen, isFunction e = false) :
    (∀ i1D i2D lenD startD posD ch2,
        is_transpose ch i1D i2D lenD startD posD = some ch2 →
        C3Preserved ch ch2) ∧
    (∀ draws ch2, ris_transpose ch draws = some ch2 → C3Preserved ch ch2) := by
  constructor
  · intro i1D i2D lenD startD posD ch2 hres
    obtain ⟨i2, donee, d2, hd, hch2, hshape, htl⟩ := is_transpose_some hlayout hres
    subst hch2
    exact set_preserves_c3 hd hshape htl htail
  · intro draws ch2 hres
    rcases ris_loop_some _ _ hres with rfl | ⟨d, hdone⟩
    · exact ⟨rfl, fun j => rfl, fun j => rfl, htail⟩
    · obtain ⟨i2, donee, d2, hd, hch2, hshape, htl⟩ := ris_attempt_done hlayout hdone
      subst hch2
      exact set_preserves_c3 hd hshape htl htail

/-- Gene for the C3 witness: head `[AND, a]`, tail `[b, c]`. -/
def gW3 : PyGene := ⟨[.sym AND, .sym termA, .sym termB, .sym termC], 2, false, []⟩

/-- Single-gene chromosome for the C3 witness. -/
def chW3 : List PyGene := [gW3]

/-- The `is_transpose` result on `chW3` with draws `0 0 1 0 1`: the IS is
`[AND]` and it is inserted at position 1 of the head. -/
def gW3is : PyGene := ⟨[.sym AND, .sym AND, .sym termB, .sym termC], 2, false, []⟩

/-- Witness for `transposition_invariants`: on the concrete single-gene
chromosome `chW3` both transpositions succeed at the given draws and the
results satisfy `C3Preserved`. -/
theorem transposition_invariants_witness :
    is_transpose chW3 0 0 1 0 1 = some [gW3is] ∧
    ris_transpose chW3 [⟨0, 0, 0, 2⟩] = some chW3 ∧
    C3Preserved chW3 [gW3is] ∧ C3Preserved chW3 chW3 :=
  ⟨by decide, by decide,
   (transposition_invariants chW3 (by decide) (by decide)).1 0 0 1 0 1 [gW3is]
     (by decide),
   (transposition_invariants chW3 (by decide) (by decide)).2 [⟨0, 0, 0, 2⟩] chW3
     (by decide)⟩

/-! ### C9: the primitive-set registry and its name rules -/

/-- A value passed to `add_constant_terminal`.  Modelled from the spec:
`ConstantTerminal.__init__` (symbol.py 178-187) only distinguishes numbers
and booleans (accepted) from every other object (rejected), so values are
embedded as numbers, booleans and opaque other objects. -/
inductive PyValue where
  | num (q : Int)
  | boolean (b : Bool)
  | other (tag : String)
deriving DecidableEq

/-- `isinstance(value, numbers.Number) or isinstance(value, bool)`
(symbol.py 184-185). -/
def isNumberOrBool : PyValue → Bool
  | .num _ => true
  | .boolean _ => true
  | .other _ => false

/-- The Python keyword list consulted by `keyword.iskeyword`.  Modelled from
the spec: the fixed CPython keyword table. -/
def pyKeywords : List String :=
  ["False", "None", "True", "and", "as", "assert", "async", "await",
   "break", "class", "continue", "def", "del", "elif", "else", "except",
   "finally", "for", "from", "global", "if", "import", "in", "is",
   "lambda", "nonlocal", "not", "or", "pass", "raise", "return", "try",
   "while", "with", "yield"]

/-- `str.isidentifier`.  Modelled from the spec: a nonempty string whose
first character is a letter or underscore and whose remaining characters
are letters, digits or underscores (the ASCII fragment of the Python
rule). -/
def isidentifier (s : String) : Bool :=
  match s.data with
  | [] => false
  | c :: cs => (c.isAlpha || c == '_') && cs.all (fun d => d.isAlphanum || d == '_')

/-- `_is_nonkeyword_identifier` (symbol.py 32-41). -/
def _is_nonkeyword_identifier (var : String) : Bool :=
  isidentifier var && !(pyKeywords.contains var)

/-- A terminal held in `PrimitiveSet._terminals`: a `ConstantTerminal`, a
`SymbolTerminal`, an `EphemeralTerminal` or an `RNCTerminal`
(symbol.py 173-305). -/
inductive PyTerminal where
  | constant (v : PyValue)
  | symbol (name : String)
  | ephemeral (name : String)
  | rnc (name : String)
deriving DecidableEq

/-- `PrimitiveSet` (symbol.py 308-346) as the registry the insertion
methods manipulate: the `_functions` list (name and arity of each
`Function`), the `_terminals` list, and the key set of the `_globals`
dictionary. -/
structure PrimitiveSet where
  functions : List (String × Nat)
  terminals : List PyTerminal
  globals : List String
deriving DecidableEq

/-- A fresh registry before the input terminals are added:
`self._globals = {'__builtins__': None}` (symbol.py 336-338). -/
def initPS : PrimitiveSet := ⟨[], [], ["__builtins__"]⟩

/-- `PrimitiveSet.add_function` (symbol.py 347-361):
`_assert_name_unique(name)` (symbol.py 387-393, `name not in self._globals`)
followed by `Function(name, arity)` whose constructor asserts
`_is_nonkeyword_identifier(name)` (symbol.py 105-116); on success the
function is appended and `_globals[name]` is set. -/
def add_function (ps : PrimitiveSet) (name : String) (arity : Nat) :
    Option PrimitiveSet :=
  if name ∈ ps.globals then none
  else if _is_nonkeyword_identifier name then
    some { ps with
             functions := ps.functions ++ [(name, arity)]
             globals := ps.globals ++ [name] }
  else none

/-- `PrimitiveSet.add_constant_terminal` (symbol.py 363-372):
no name is involved; `ConstantTerminal.__init__` asserts only that the
value is a number or a bool. -/
def add_constant_terminal (ps : PrimitiveSet) (v : PyValue) :
    Option PrimitiveSet :=
  if isNumberOrBool v then
    some { ps with terminals := ps.terminals ++ [.constant v] }
  else none

/-- `PrimitiveSet.add_symbol_terminal` (symbol.py 374-385):
`_assert_name_unique(name)` followed by `SymbolTerminal(name)` whose
constructor asserts `_is_nonkeyword_identifier(name)` (symbol.py 197-205);
on success `_globals[name]` is set and the terminal appended. -/
def add_symbol_terminal (ps : PrimitiveSet) (name : String) :
    Option PrimitiveSet :=
  if name ∈ ps.globals then none
  else if _is_nonkeyword_identifier name then
    some { ps with
             terminals := ps.terminals ++ [.symbol name]
             globals := ps.globals ++ [name] }
  else none

/-- `PrimitiveSet.add_ephemeral_terminal` (symbol.py 395-423):
`_assert_name_unique(name)` is checked, but no identifier validity, and the
name is NOT entered into `_globals`. -/
def add_ephemeral_terminal (ps : PrimitiveSet) (name : String) :
    Option PrimitiveSet :=
  if name ∈ ps.globals then none
  else some { ps with terminals := ps.terminals ++ [.ephemeral name] }

/-- `PrimitiveSet.add_rnc_terminal` (symbol.py 425-439): no check at
all. -/
def add_rnc_terminal (ps : PrimitiveSet) (name : String) :
    Option PrimitiveSet :=
  some { ps with terminals := ps.terminals ++ [.rnc name] }

/-- The input-terminal loop of `PrimitiveSet.__init__` (symbol.py 341-345):
each input name is checked by `_assert_name_unique` and added with
`add_symbol_terminal`. -/
def addInputs : PrimitiveSet → List String → Option PrimitiveSet
  | ps, [] => some ps
  | ps, n :: ns =>
    if n ∈ ps.globals then none
    else (add_symbol_terminal ps n).bind fun ps2 => addInputs ps2 ns

/-- One insertion call on the registry. -/
inductive PSOp where
  | addFunction (name : String) (arity : Nat)
  | addConstant (v : PyValue)
  | addSymbol (name : String)
  | addEphemeral (name : String)
  | addRnc (name : String)
deriving DecidableEq

/-- Dispatch one insertion call. -/
def applyOp (ps : PrimitiveSet) : PSOp → Option PrimitiveSet
  | .addFunction name arity => add_function ps name arity
  | .addConstant v => add_constant_terminal ps v
  | .addSymbol name => add_symbol_terminal ps name
  | .addEphemeral name => add_ephemeral_terminal ps name
  | .addRnc name => add_rnc_terminal ps name

/-- Run a sequence of insertion calls; any assertion failure aborts. -/
def applyOps : PrimitiveSet → List PSOp → Option PrimitiveSet
  | ps, [] => some ps
  | ps, op :: ops => (applyOp ps op).bind fun ps2 => applyOps ps2 ops

/-- The names of the symbol terminals in a terminal list. -/
def symNamesOf (ts : List PyTerminal) : List String :=
  ts.filterMap fun t =>
    match t with
    | .symbol n => some n
    | _ => none

/-- The function and symbol-terminal names registered in a primitive
set. -/
def registeredNames (ps : PrimitiveSet) : List String :=
  ps.functions.map Prod.fst ++ symNamesOf ps.terminals

/-- The registry invariant: the registered function and symbol-terminal
names are pairwise distinct, and each of them is a key of `_globals`. -/
def PSInv (ps : PrimitiveSet) : Prop :=
  (registeredNames ps).Nodup ∧ ∀ n ∈ registeredNames ps, n ∈ ps.globals

lemma symNamesOf_append (ts ts2 : List PyTerminal) :
    symNamesOf (ts ++ ts2) = symNamesOf ts ++ symNamesOf ts2 :=
  List.filterMap_append ts ts2 _

/-- Appending one fresh name to either component of the registered names
preserves the invariant data. -/
lemma psinv_extend {f s g : List String} {n : String}
    (hnd : (f ++ s).Nodup) (hsub : ∀ m ∈ f ++ s, m ∈ g) (hn : n ∉ g) :
    (n :: (f ++ s)).Nodup ∧ ∀ m ∈ n :: (f ++ s), m ∈ g ++ [n] := by
  constructor
  · rw [List.nodup_cons]
    exact ⟨fun hmem => hn (hsub n hmem), hnd⟩
  · intro m hm
    rcases List.mem_cons.mp hm with rfl | hm2
    · exact List.mem_append_right g (List.mem_singleton_self m)
    · exact List.mem_append_left _ (hsub m hm2)

/-- A successful insertion preserves the registry invariant. -/
lemma applyOp_inv {ps ps2 : PrimitiveSet} {op : PSOp}
    (hinv : PSInv ps) (h : applyOp ps op = some ps2) : PSInv ps2 := by
  obtain ⟨hnd, hsub⟩ := hinv
  cases op with
  | addFunction name arity =>
    simp only [applyOp] at h
    unfold add_function at h
    by_cases hmem : name ∈ ps.globals
    · rw [if_pos hmem] at h; exact Option.noConfusion h
    · rw [if_neg hmem] at h
      cases hid : _is_nonkeyword_identifier name with
      | false => rw [hid, if_neg Bool.false_ne_true] at h; exact Option.noConfusion h
      | true =>
        rw [hid, if_pos rfl] at h
        obtain rfl := Option.some.inj h
        obtain ⟨hnd2, hsub2⟩ := psinv_extend hnd hsub hmem
        have hperm : ((ps.functions ++ [(name, arity)]).map Prod.fst ++
            symNamesOf ps.terminals).Perm
            (name :: (ps.functions.map Prod.fst ++ symNamesOf ps.terminals)) := by
          rw [List.map_append, List.append_assoc]
          exact List.perm_middle
        constructor
        · exact (hperm.symm).nodup hnd2
        · intro m hm
          exact hsub2 m (hperm.mem_iff.mp hm)
  | addConstant v =>
    simp only [applyOp] at h
    unfold add_constant_terminal at h
    cases hv : isNumberOrBool v with
    | false => rw [hv, if_neg Bool.false_ne_true] at h; exact Option.noConfusion h
    | true =>
      rw [hv, if_pos rfl] at h
      obtain rfl := Option.some.inj h
      have hreg : registeredNames { ps with terminals := ps.terminals ++ [.constant v] } =
          registeredNames ps := by
        unfold registeredNames
        simp only
        rw [symNamesOf_append]
        simp [symNamesOf]
      rw [PSInv, hreg]
      exact ⟨hnd, hsub⟩
  | addSymbol name =>
    simp only [applyOp] at h
    unfold add_symbol_terminal at h
    by_cases hmem : name ∈ ps.globals
    · rw [if_pos hmem] at h; exact Option.noConfusion h
    · rw [if_neg hmem] at h
      cases hid : _is_nonkeyword_identifier name with
      | false => rw [hid, if_neg Bool.false_ne_true] at h; exact Option.noConfusion h
      | true =>
        rw [hid, if_pos rfl] at h
        obtain rfl := Option.some.inj h
        obtain ⟨hnd2, hsub2⟩ := psinv_extend hnd hsub hmem
        have hperm : (ps.functions.map Prod.fst ++
            symNamesOf (ps.terminals ++ [.symbol name])).Perm
            (name :: (ps.functions.map Prod.fst ++ symNamesOf ps.terminals)) := by
          rw [symNamesOf_append]
          have hone : symNamesOf [PyTerminal.symbol name] = [name] := rfl
          rw [hone, ← List.append_assoc]
          have hmid : (ps.functions.map Prod.fst ++ symNamesOf ps.terminals) ++ [name] =
              (ps.functions.map Prod.fst ++ symNamesOf ps.terminals) ++ name :: [] := rfl
          rw [hmid]
          have := @List.perm_middle String name
            (ps.functions.map Prod.fst ++ symNamesOf ps.terminals) []
          rw [List.append_nil] at this
          exact this
        constructor
        · exact (hperm.symm).nodup hnd2
        · intro m hm
          exact hsub2 m (hperm.mem_iff.mp hm)
  | addEphemeral name =>
    simp only [applyOp] at h
    unfold add_ephemeral_terminal at h
    by_cases hmem : name ∈ ps.globals
    · rw [if_pos hmem] at h; exact Option.noConfusion h
    · rw [if_neg hmem] at h
      obtain rfl := Option.some.inj h
      have hreg : registeredNames { ps with terminals := ps.terminals ++ [.ephemeral name] } =
          registeredNames ps := by
        unfold registeredNames
        simp only
        rw [symNamesOf_append]
        simp [symNamesOf]
      rw [PSInv, hreg]
      exact ⟨hnd, hsub⟩
  | addRnc name =>
    simp only [applyOp] at h
    unfold add_rnc_terminal at h
    obtain rfl := Option.some.inj h
    have hreg : registeredNames { ps with terminals := ps.terminals ++ [.rnc name] } =
        registeredNames ps := by
      unfold registeredNames
      simp only
      rw [symNamesOf_append]
      simp [symNamesOf]
    rw [PSInv, hreg]
    exact ⟨hnd, hsub⟩

/-- Running a sequence of successful insertions preserves the registry
invariant. -/
lemma applyOps_inv :
    ∀ (ops : List PSOp) {ps ps2 : PrimitiveSet},
      PSInv ps → applyOps ps ops = some ps2 → PSInv ps2 := by
  intro ops
  induction ops with
  | nil =>
    intro ps ps2 hinv h
    obtain rfl := Option.some.inj h
    exact hinv
  | cons op ops ih =>
    intro ps ps2 hinv h
    unfold applyOps at h
    rw [Option.bind_eq_some] at h
    obtain ⟨ps1, h1, h2⟩ := h
    exact ih (applyOp_inv hinv h1) h2

/-- The input loop of `PrimitiveSet.__init__` preserves the registry
invariant. -/
lemma addInputs_inv :
    ∀ (ns : List String) {ps ps2 : PrimitiveSet},
      PSInv ps → addInputs ps ns = some ps2 → PSInv ps2 := by
  intro ns
  induction ns with
  | nil =>
    intro ps ps2 hinv h
    obtain rfl := Option.some.inj h
    exact hinv
  | cons n ns ih =>
    intro ps ps2 hinv h
    unfold addInputs at h
    by_cases hmem : n ∈ ps.globals
    · rw [if_pos hmem] at h; exact Option.noConfusion h
    · rw [if_neg hmem] at h
      rw [Option.bind_eq_some] at h
      obtain ⟨ps1, h1, h2⟩ := h
      exact ih (@applyOp_inv ps ps1 (PSOp.addSymbol n) hinv h1) h2

/-- A fresh registry satisfies the invariant. -/
lemma initPS_inv : PSInv initPS := by
  constructor
  · exact List.nodup_nil
  · intro n hn
    exact absurd hn (List.not_mem_nil n)

/-- C9: `add_function` and `add_symbol_terminal` fail exactly when the name
is already a key of `_globals` or is not a valid non-keyword identifier;
`add_constant_terminal` succeeds exactly when the value is a number or a
bool, independently of any name, and `add_rnc_terminal` always succeeds;
and after a successfully constructed primitive set and any successful
sequence of insertions, the registered function and symbol-terminal names
are pairwise distinct. -/
theorem registry_name_rules :
    (∀ (ps : PrimitiveSet) (name : String) (arity : Nat),
        add_function ps name arity = none ↔
        name ∈ ps.globals ∨ _is_nonkeyword_identifier name = false) ∧
    (∀ (ps : PrimitiveSet) (name : String),
        add_symbol_terminal ps name = none ↔
        name ∈ ps.globals ∨ _is_nonkeyword_identifier name = false) ∧
    (∀ (ps : PrimitiveSet) (v : PyValue),
        (add_constant_terminal ps v).isSome = isNumberOrBool v) ∧
    (∀ (ps : PrimitiveSet) (name : String),
        (add_rnc_terminal ps name).isSome = true) ∧
    (∀ (inputs : List String) (ps : PrimitiveSet),
        addInputs initPS inputs = some ps →
        ∀ (ops : List PSOp) (ps2 : PrimitiveSet),
          applyOps ps ops = some ps2 → (registeredNames ps2).Nodup) := by
  refine ⟨?_, ?_, ?_, ?_, ?_⟩
  · intro ps name arity
    unfold add_function
    by_cases hmem : name ∈ ps.globals
    · rw [if_pos hmem]
      exact ⟨fun _ => Or.inl hmem, fun _ => rfl⟩
    · rw [if_neg hmem]
      cases hid : _is_nonkeyword_identifier name with
      | false =>
        rw [if_neg Bool.false_ne_true]
        exact ⟨fun _ => Or.inr rfl, fun _ => rfl⟩
      | true =>
        rw [if_pos rfl]
        constructor
        · intro hc; exact Option.noConfusion hc
        · intro hc
          rcases hc with hc | hc
          · exact absurd hc hmem
          · exact absurd hc (by simp)
  · intro ps name
    unfold add_symbol_terminal
    by_cases hmem : name ∈ ps.globals
    · rw [if_pos hmem]
      exact ⟨fun _ => Or.inl hmem, fun _ => rfl⟩
    · rw [if_neg hmem]
      cases hid : _is_nonkeyword_identifier name with
      | false =>
        rw [if_neg Bool.false_ne_true]
        exact ⟨fun _ => Or.inr rfl, fun _ => rfl⟩
      | true =>
        rw [if_pos rfl]
        constructor
        · intro hc; exact Option.noConfusion hc
        · intro hc
          rcases hc with hc | hc
          · exact absurd hc hmem
          · exact absurd hc (by simp)
  · intro ps v
    unfold add_constant_terminal
    cases hv : isNumberOrBool v with
    | false => rw [if_neg Bool.false_ne_true]; rfl
    | true => rw [if_pos rfl]; rfl
  · intro ps name
    rfl
  · intro inputs ps hps ops ps2 hops
    exact (applyOps_inv ops (addInputs_inv inputs initPS_inv hps) hops).1

/-- Registry after `PrimitiveSet('w', ['x', 'y'])` for the C9 witness. -/
def psW9 : PrimitiveSet :=
  ⟨[], [.symbol "x", .symbol "y"], ["__builtins__", "x", "y"]⟩

/-- Registry after further adding a function, a constant terminal, an
ephemeral terminal and an RNC terminal, for the C9 witness. -/
def psW9b : PrimitiveSet :=
  ⟨[("add", 2)],
   [.symbol "x", .symbol "y", .constant (.num 3), .ephemeral "eph", .rnc "?"],
   ["__builtins__", "x", "y", "add"]⟩

/-- Witness for `registry_name_rules` on a concrete registry: a colliding
name and a keyword name are rejected, and a successful insertion sequence
keeps the registered names pairwise distinct. -/
theorem registry_name_rules_witness :
    add_function psW9 "x" 2 = none ∧
    add_function psW9 "if" 2 = none ∧
    (registeredNames psW9b).Nodup :=
  ⟨(registry_name_rules.1 psW9 "x" 2).mpr (Or.inl (by decide)),
   (registry_name_rules.1 psW9 "if" 2).mpr (Or.inr (by decide)),
   registry_name_rules.2.2.2.2 ["x", "y"] psW9 (by decide)
     [.addFunction "add" 2, .addConstant (.num 3), .addEphemeral "eph",
      .addRnc "?"] psW9b (by decide)⟩

end Geppy
